import Mathlib

/-!
Verification development for the source-partitioning scanner of the
`venus` repository (`src/util/source-handler/partition.ts`).

The document text is modelled as a `List Char`; offsets are `Nat` indices
into that list.  JavaScript's `charAt` is modelled with the optional
indexing `text[i]?`
(out-of-range access yields `none`, which fails every character test, just
as the empty string returned by `charAt` does), `String.prototype.slice`
with `sliceList` (clipping at the ends), and `String.prototype.startsWith`
with `startsWithAt`.

The character class `\s` of JavaScript regular expressions is modelled by
its ASCII part (space, tab, newline, carriage return, vertical tab, form
feed); the non-ASCII space code points never occur in the inputs studied
here.  Likewise `\w` is `[A-Za-z0-9_]`, exactly as in JavaScript.
-/

/-- JavaScript regular-expression class `[\t ]` (horizontal whitespace),
applied to the result of `charAt`: an out-of-range access fails the test. -/
def isHoriz : Option Char → Bool
  | some c => c = '\t' || c = ' '
  | none => false

/-- JavaScript regular-expression class `\s`, restricted to ASCII. -/
def isWsChar (c : Char) : Bool :=
  c = ' ' || c = '\t' || c = '\n' || c = '\r' || c = '\x0b' || c = '\x0c'

/-- The test `/^\s$/.test(content.charAt(i))`. -/
def isWs : Option Char → Bool
  | some c => isWsChar c
  | none => false

/-- JavaScript regular-expression class `\w`: ASCII letters, digits and
underscore. -/
def isWordChar (c : Char) : Bool :=
  ('a' ≤ c && c ≤ 'z') || ('A' ≤ c && c ≤ 'Z') || ('0' ≤ c && c ≤ '9') || c = '_'

/-- JavaScript `content.slice(a, b)` for non-negative indices: the
characters at positions `a ≤ k < b`, clipped to the text length. -/
def sliceList (text : List Char) (a b : Nat) : List Char :=
  (text.take b).drop a

/-- JavaScript `content.startsWith(tok, i)`. -/
def startsWithAt (text : List Char) (tok : List Char) (i : Nat) : Bool :=
  (text.drop i).take tok.length = tok

/-- A matched region: a start offset into the original text together with
the exact substring (`SourcePiece` of `src/util/source-handler/index.ts`,
whose declaration is not part of the sources; its two fields `start` and
`content` are used throughout `partition.ts`). -/
structure SourcePiece where
  start : Nat
  content : List Char
deriving DecidableEq, Repr

/-- Modelled from the spec: the language descriptor of
`src/config/immutable` (not among the source files), per section 6 of the
specification: macro mark `#`, quote marks `"` and `'`, line-comment mark
`//`, block-comment marks `/*` and `*/`. -/
structure LanguageConfig where
  macroMark : List Char
  quoteMark : List Char
  inlineCommentMark : List Char
  blockCommentMark : List Char × List Char

/-- Modelled from the spec: the fixed C/C++-like configuration value read
by `partition`. -/
def languageConfig : LanguageConfig :=
  { macroMark := ['#']
  , quoteMark := ['"', '\'']
  , inlineCommentMark := ['/', '/']
  , blockCommentMark := (['/', '*'], ['*', '/']) }

/-- The loop `while (start > 0 && /^[\t ]$/.test(content.charAt(start-1))) --start`
shared by `matchMacro` and `matchBlockComment`: extends a region start
backward over horizontal whitespace. -/
def backoffStart (text : List Char) : Nat → Nat
  | 0 => 0
  | s + 1 => if isHoriz (text[s]?) then backoffStart text s else s + 1

/-- The inner loop of `matchMacro`:
`for (++end; end < content.length && /^\s$/.test(content.charAt(end));) ++end`
starting after the `++end`, i.e. the first index `≥ e` that is not
whitespace (or the text length). -/
def absorbWsGo (text : List Char) : Nat → Nat → Nat
  | 0, e => e
  | gas + 1, e =>
    if e < text.length ∧ isWs (text[e]?) then absorbWsGo text gas (e + 1) else e

/-- The loop itself.  All loops of the scanner advance their index by at
least one per iteration, so `text.length` steps of gas always suffice:
when the gas runs out the index is already past the end of the text and
the gas-out value agrees with the loop-exit value. -/
def absorbWs (text : List Char) (e : Nat) : Nat :=
  absorbWsGo text text.length e

/-- The scan loop of `matchMacro`: from index `e`, skip ordinary
characters; stop at a newline; at a backslash, absorb the following
whitespace run (the inner loop), step back by one and let the outer loop
increment again. Returns the final value of `end`. -/
def macroScanGo (text : List Char) : Nat → Nat → Nat
  | 0, e => e
  | gas + 1, e =>
    if e < text.length then
      match text[e]? with
      | some c =>
        if c = '\n' then e
        else if c = '\\' then macroScanGo text gas (absorbWs text (e + 1))
        else macroScanGo text gas (e + 1)
      | none => e
    else e

/-- The loop itself (gas as in `absorbWs`). -/
def macroScan (text : List Char) (e : Nat) : Nat :=
  macroScanGo text text.length e

/-- Translation of `matchMacro` (`partition.ts` lines 30-42): back the
start off over horizontal whitespace, scan from `start + 1`, return the
slice `content.slice(start, end + 1)`. -/
def matchMacro (text : List Char) (start0 : Nat) : SourcePiece :=
  let start := backoffStart text start0
  let e := macroScan text (start + 1)
  ⟨start, sliceList text start (e + 1)⟩

/-- The scan loop of `matchLiteral`: from index `e`, skip ordinary
characters, stop at the quote, and on a backslash skip the following
character as well. Returns the final value of `end` (which is `≥` the
text length exactly when the literal is unterminated). -/
def literalScanGo (text : List Char) (quote : Char) : Nat → Nat → Nat
  | 0, e => e
  | gas + 1, e =>
    if e < text.length then
      match text[e]? with
      | some c =>
        if c = quote then e
        else if c = '\\' then literalScanGo text quote gas (e + 2)
        else literalScanGo text quote gas (e + 1)
      | none => e
    else e

/-- The loop itself (gas as in `absorbWs`). -/
def literalScan (text : List Char) (quote : Char) (e : Nat) : Nat :=
  literalScanGo text quote text.length e

/-- Translation of `matchLiteral` (`partition.ts` lines 50-67).  The
unterminated case (`end >= content.length`), on which the original calls
`logger.fatal` and exits the process, is surfaced as `none`. -/
def matchLiteral (text : List Char) (start : Nat) : Option SourcePiece :=
  let quote := text.getD start ' '
  let e := literalScan text quote (start + 1)
  if e ≥ text.length then none
  else some ⟨start, sliceList text start (e + 1)⟩

/-- The scan loop of `matchLineComment`: first index `≥ e` holding a
newline, or the text length. -/
def lineCommentScanGo (text : List Char) : Nat → Nat → Nat
  | 0, e => e
  | gas + 1, e =>
    if e < text.length then
      if text[e]? = some '\n' then e else lineCommentScanGo text gas (e + 1)
    else e

/-- The loop itself (gas as in `absorbWs`). -/
def lineCommentScan (text : List Char) (e : Nat) : Nat :=
  lineCommentScanGo text text.length e

/-- Translation of `matchLineComment` (`partition.ts` lines 77-82): the
region runs to the next newline (exclusive) or to end of text. -/
def matchLineComment (text : List Char) (start : Nat) (lcSymbol : List Char) : SourcePiece :=
  let e := lineCommentScan text (start + lcSymbol.length)
  ⟨start, sliceList text start e⟩

/-- The search loop of `matchBlockComment`: first index `≥ e` where the
closing token starts (prefix test), or the text length. -/
def findCloseGo (text : List Char) (close : List Char) : Nat → Nat → Nat
  | 0, e => e
  | gas + 1, e =>
    if e < text.length then
      if startsWithAt text close e then e else findCloseGo text close gas (e + 1)
    else e

/-- The loop itself (gas as in `absorbWs`). -/
def findClose (text : List Char) (close : List Char) (e : Nat) : Nat :=
  findCloseGo text close text.length e

/-- The loop `while (end < content.length && /^[\t ]$/.test(content.charAt(end))) ++end`. -/
def absorbHorizGo (text : List Char) : Nat → Nat → Nat
  | 0, e => e
  | gas + 1, e =>
    if e < text.length ∧ isHoriz (text[e]?) then absorbHorizGo text gas (e + 1) else e

/-- The loop itself (gas as in `absorbWs`). -/
def absorbHoriz (text : List Char) (e : Nat) : Nat :=
  absorbHorizGo text text.length e

/-- The loop `while (end < content.length && /^[\n]$/.test(content.charAt(end))) ++end`. -/
def absorbNewlinesGo (text : List Char) : Nat → Nat → Nat
  | 0, e => e
  | gas + 1, e =>
    if e < text.length ∧ text[e]? = some '\n' then absorbNewlinesGo text gas (e + 1) else e

/-- The loop itself (gas as in `absorbWs`). -/
def absorbNewlines (text : List Char) (e : Nat) : Nat :=
  absorbNewlinesGo text text.length e

/-- Translation of `matchBlockComment` (`partition.ts` lines 92-110): back
the start off over horizontal whitespace, search for the closing token
from `start + open.length`; reaching end of text is the fatal
"block comment is not closed" case, surfaced as `none`; on success absorb
trailing horizontal whitespace and then trailing newlines. -/
def matchBlockComment (text : List Char) (start0 : Nat) (bcSymbol : List Char × List Char) :
    Option SourcePiece :=
  let start := backoffStart text start0
  let e := findClose text bcSymbol.2 (start + bcSymbol.1.length)
  if e ≥ text.length then none
  else
    let e2 := e + bcSymbol.2.length
    let e3 := absorbHoriz text e2
    let e4 := absorbNewlines text e3
    some ⟨start, sliceList text start e4⟩

/-- The two fatal conditions of the scanner (`logger.fatal` followed by
`process.exit(-1)` in the original), surfaced as a typed error. -/
inductive PartitionError
  | unterminatedLiteral
  | unterminatedBlockComment
deriving DecidableEq, Repr

/-- The kind of a matched region, used to route a matched piece into the
`macros`, `literals` or `comments` list of `partition`. -/
inductive PieceKind
  | macroK
  | literalK
  | commentK
deriving DecidableEq, Repr

/-- Result of trying the four matchers at one scan position. -/
inductive StepRes
  | noMatch
  | fatal (e : PartitionError)
  | piece (k : PieceKind) (p : SourcePiece)
deriving DecidableEq, Repr

/-- The loop `for (let quote of quoteMark) if (content.startsWith(quote, i)) ...`
of `partition`: some configured quote character starts at `i`.  The two
configured quote marks are distinct single characters, so at most one of
them can match and the loop pushes at most one literal. -/
def quoteAt (text : List Char) (i : Nat) : Bool :=
  languageConfig.quoteMark.any fun q => startsWithAt text [q] i

/-- The body of the scan loop of `partition` (lines 130-158): try the
matchers in the fixed priority order macro, literal, line comment, block
comment; the first whose introducer matches at `i` wins. -/
def tryMatchers (text : List Char) (i : Nat) : StepRes :=
  if startsWithAt text languageConfig.macroMark i then
    .piece .macroK (matchMacro text i)
  else if quoteAt text i then
    match matchLiteral text i with
    | some p => .piece .literalK p
    | none => .fatal .unterminatedLiteral
  else if startsWithAt text languageConfig.inlineCommentMark i then
    .piece .commentK (matchLineComment text i languageConfig.inlineCommentMark)
  else if startsWithAt text languageConfig.blockCommentMark.1 i then
    match matchBlockComment text i languageConfig.blockCommentMark with
    | some p => .piece .commentK p
    | none => .fatal .unterminatedBlockComment
  else .noMatch

instance {ε α : Type} [DecidableEq ε] [DecidableEq α] : DecidableEq (Except ε α) := fun x y =>
  match x, y with
  | .ok a, .ok b => if h : a = b then .isTrue (by rw [h]) else .isFalse (by simp [h])
  | .error a, .error b => if h : a = b then .isTrue (by rw [h]) else .isFalse (by simp [h])
  | .ok _, .error _ => .isFalse (by simp)
  | .error _, .ok _ => .isFalse (by simp)

/-- One entry of the chronological record of the scan: either a plain-code
run pushed to `sources` when a region closes (and the final trailing run),
or a matched region pushed to its kind-specific list.  The original pushes
into four arrays; recording the pushes in text order and filtering by kind
recovers exactly those arrays. -/
inductive Ev
  | src (p : SourcePiece)
  | reg (k : PieceKind) (p : SourcePiece)
deriving DecidableEq, Repr

/-- The piece carried by an event. -/
def evPiece : Ev → SourcePiece
  | .src p => p
  | .reg _ p => p

/-- The scan loop of `partition` (lines 128-167): cursor `i`, start of the
current plain-code run `li` (the `lastIndex` of the original).  On a match
the current plain run `content.slice(lastIndex, piece.start)` is closed,
the region is emitted, and the cursor resumes at
`lastIndex = piece.start + piece.content.length` (the original sets
`i = lastIndex - 1` and lets the loop increment).  After the loop one
final plain run `content.slice(lastIndex)` is pushed. -/
def scanLoopGo (text : List Char) : Nat → Nat → Nat → Except PartitionError (List Ev)
  | 0, _, li => .ok [.src ⟨li, text.drop li⟩]
  | gas + 1, i, li =>
    if i < text.length then
      match tryMatchers text i with
      | .noMatch => scanLoopGo text gas (i + 1) li
      | .fatal e => .error e
      | .piece k p =>
        match scanLoopGo text gas (p.start + p.content.length) (p.start + p.content.length) with
        | .error e => .error e
        | .ok evs => .ok (.src ⟨li, sliceList text li p.start⟩ :: .reg k p :: evs)
    else .ok [.src ⟨li, text.drop li⟩]

/-- The loop itself.  By `tryMatchers_progress` the cursor advances by at
least one position per iteration, so `text.length` rounds of gas always
suffice; when the gas runs out the cursor is already past the end of the
text and the gas-out value agrees with the loop-exit value (the final
trailing plain run). -/
def scanLoop (text : List Char) (i li : Nat) : Except PartitionError (List Ev) :=
  scanLoopGo text text.length i li

/-! ## The extraction pass

`partition` runs three regular expressions with flag `g` over region
contents via `String.prototype.replace`, deleting every match and
collecting the captured groups:

* `getImportRegex` (line 9): `#include\s*[<"]([\w\-_.:\/\\]+)[>"]\s*?\n`
* `getNamespaceRegex` (line 15): `using\s+namespace\s+(\w+)\s*;\s*`
* `getTypedefRegex` (line 21): `typedef\s+([\w* <>]+)\s+(\w+)\s*;\s*`

Each is embedded as a match-at-position function returning the end of the
match and the captures.  For the first two patterns every quantifier is
determinate: each greedy `\s*`/`\s+`/`(\w+)` run is followed by a
character that cannot belong to the repeated class, and the lazy `\s*?\n`
matches the shortest whitespace run ending at a newline, so no
backtracking can arise and the functions below scan left to right without
search.  The typedef pattern's first group `([\w* <>]+)` genuinely
backtracks (its class contains the space that the following `\s+` also
matches), which `tdSearch` reproduces by trying capture lengths from the
greedy maximum downwards. -/

/-- Greedy scan: the first index `≥ i` whose character fails `pc`, or the
text length. -/
def skipWhileGo (pc : Char → Bool) (text : List Char) : Nat → Nat → Nat
  | 0, i => i
  | gas + 1, i =>
    if i < text.length then
      match text[i]? with
      | some c => if pc c then skipWhileGo pc text gas (i + 1) else i
      | none => i
    else i

/-- The scan itself (gas as in `absorbWs`). -/
def skipWhile (pc : Char → Bool) (text : List Char) (i : Nat) : Nat :=
  skipWhileGo pc text text.length i

/-- Match a literal token at a position (the literal parts of the regular
expressions). -/
def parseTok (text tok : List Char) (i : Nat) : Option Nat :=
  if startsWithAt text tok i then some (i + tok.length) else none

/-- Characters allowed in the captured path of `getImportRegex`:
the class `[\w\-_.:\/\\]`. -/
def isPathChar (c : Char) : Bool :=
  isWordChar c || c = '-' || c = '.' || c = ':' || c = '/' || c = '\\'

/-- Match `getImportRegex` at position `i`: literal `#include`, greedy
`\s*`, one of `<`/`"`, the captured path (one or more path characters),
one of `>`/`"`, then the lazy `\s*?` up to a required newline.  Returns
the end of the match (exclusive, just past the newline) and the captured
path. -/
def importMatchAt (text : List Char) (i : Nat) : Option (Nat × List Char) :=
  match parseTok text ['#', 'i', 'n', 'c', 'l', 'u', 'd', 'e'] i with
  | none => none
  | some j =>
    let j2 := skipWhile isWsChar text j
    match text[j2]? with
    | none => none
    | some oc =>
      if oc = '<' || oc = '"' then
        let k := skipWhile isPathChar text (j2 + 1)
        if k = j2 + 1 then none
        else
          match text[k]? with
          | none => none
          | some cc =>
            if cc = '>' || cc = '"' then
              let m := skipWhile (fun c => isWsChar c && !(c = '\n')) text (k + 1)
              if text[m]? = some '\n' then some (m + 1, sliceList text (j2 + 1) k)
              else none
            else none
      else none

/-- Match `getNamespaceRegex` at position `i`: literal `using`, `\s+`,
literal `namespace`, `\s+`, the captured identifier `(\w+)`, `\s*`, `;`,
then trailing `\s*`.  Returns the end of the match and the capture. -/
def nsMatchAt (text : List Char) (i : Nat) : Option (Nat × List Char) :=
  match parseTok text ['u', 's', 'i', 'n', 'g'] i with
  | none => none
  | some j =>
    let j2 := skipWhile isWsChar text j
    if j2 = j then none
    else
      match parseTok text ['n', 'a', 'm', 'e', 's', 'p', 'a', 'c', 'e'] j2 with
      | none => none
      | some j3 =>
        let j4 := skipWhile isWsChar text j3
        if j4 = j3 then none
        else
          let k := skipWhile isWordChar text j4
          if k = j4 then none
          else
            let j5 := skipWhile isWsChar text k
            if text[j5]? = some ';' then
              some (skipWhile isWsChar text (j5 + 1), sliceList text j4 k)
            else none

/-- Characters of the typedef pattern's first group: the class `[\w* <>]`. -/
def isTdChar (c : Char) : Bool :=
  isWordChar c || c = '*' || c = ' ' || c = '<' || c = '>'

/-- The part of `getTypedefRegex` after the first captured group, tried
with a capture of exact length `a` starting at `p0`: `\s+`, the captured
alias `(\w+)`, `\s*`, `;`, trailing `\s*`.  Returns the end of the match
and the pair (first capture, alias capture). -/
def tdTail (text : List Char) (p0 a : Nat) : Option (Nat × List Char × List Char) :=
  let q := p0 + a
  let q2 := skipWhile isWsChar text q
  if q2 = q then none
  else
    let r := skipWhile isWordChar text q2
    if r = q2 then none
    else
      let r2 := skipWhile isWsChar text r
      if text[r2]? = some ';' then
        some (skipWhile isWsChar text (r2 + 1), sliceList text p0 (p0 + a), sliceList text q2 r)
      else none

/-- Backtracking over the first group's length, longest first (the greedy
`+` of a character class tries its maximal run, then shorter ones). -/
def tdSearch (text : List Char) (p0 : Nat) : Nat → Option (Nat × List Char × List Char)
  | 0 => none
  | a + 1 =>
    match tdTail text p0 (a + 1) with
    | some r => some r
    | none => tdSearch text p0 a

/-- Backtracking over the length of the `\s+` that separates `typedef`
from the first group, longest first: the engine shortens the greedy
`\s+` only after every first-group length has failed at the current
start, and a shorter `\s+` lets the first group start inside the
whitespace run (its class contains the space character).  `w + 1` is the
number of whitespace characters the `\s+` takes, so the group starts at
`j + w + 1`. -/
def tdWsSearch (text : List Char) (j : Nat) : Nat → Option (Nat × List Char × List Char)
  | 0 => none
  | w + 1 =>
    match tdSearch text (j + w + 1)
        (skipWhile isTdChar text (j + w + 1) - (j + w + 1)) with
    | some r => some r
    | none => tdWsSearch text j w

/-- Match `getTypedefRegex` at position `i`: literal `typedef`, then the
two-level backtracking search over the `\s+` length (at most the
whitespace run after the literal) and the first group's length. -/
def typedefMatchAt (text : List Char) (i : Nat) : Option (Nat × List Char × List Char) :=
  match parseTok text ['t', 'y', 'p', 'e', 'd', 'e', 'f'] i with
  | none => none
  | some j => tdWsSearch text j (skipWhile isWsChar text j - j)

/-- Leftmost match search of `RegExp.prototype.exec`: the first position
`j ≥ pos` at which the matcher succeeds.  (The three matchers above all
require at least one literal character, so no match can start at or past
the end of the text.) -/
def findFromGo {α : Type} (matchAt : List Char → Nat → Option (Nat × α))
    (text : List Char) : Nat → Nat → Option (Nat × Nat × α)
  | 0, _ => none
  | gas + 1, j =>
    if j < text.length then
      match matchAt text j with
      | some (e, cap) => some (j, e, cap)
      | none => findFromGo matchAt text gas (j + 1)
    else none

/-- The search itself (gas as in `absorbWs`). -/
def findFrom {α : Type} (matchAt : List Char → Nat → Option (Nat × α))
    (text : List Char) (j : Nat) : Option (Nat × Nat × α) :=
  findFromGo matchAt text text.length j

/-- JavaScript `String.prototype.replace` with a `g`-flagged regular expression and a
callback that records the captures and returns the empty string: the
non-matched stretches are concatenated in order and the captures are
collected left to right.  The hypothesis `hb` (each match is non-empty and
ends within the text) holds for the three matchers above and makes the
search advance. -/
def replaceGGo {α : Type} (matchAt : List Char → Nat → Option (Nat × α))
    (text : List Char) : Nat → Nat → List Char × List α
  | 0, pos => (text.drop pos, [])
  | gas + 1, pos =>
    match findFrom matchAt text pos with
    | none => (text.drop pos, [])
    | some (j, e, cap) =>
      let r := replaceGGo matchAt text gas e
      (sliceList text pos j ++ r.1, cap :: r.2)

/-- The replace loop itself.  Each of the three matchers consumes at least
one character per match, so `text.length + 1` rounds of gas always
suffice; when the gas runs out the position is already past the end of the
text, where the search finds nothing and the gas-out value agrees with
the no-match value. -/
def replaceG {α : Type} (matchAt : List Char → Nat → Option (Nat × α))
    (text : List Char) : List Char × List α :=
  replaceGGo matchAt text (text.length + 1) 0

/-- Dependency extraction over one macro content (`partition.ts` lines
170-175): strip every `getImportRegex` match, collecting the captured
paths. -/
def importReplace (text : List Char) : List Char × List (List Char) :=
  replaceG importMatchAt text

/-- Namespace extraction over one plain-code content (lines 178-183). -/
def nsReplace (text : List Char) : List Char × List (List Char) :=
  replaceG nsMatchAt text

/-- Typedef extraction over one plain-code content (lines 186-191). -/
def tdReplace (text : List Char) : List Char × List (List Char × List Char) :=
  replaceG typedefMatchAt text

/-- JavaScript `[...new Set(list)]`: deduplication keeping the first
occurrence of each element, in first-occurrence order (`seen` is the set
built so far). -/
def jsSetDedupGo {α : Type} [DecidableEq α] (seen : List α) : List α → List α
  | [] => []
  | a :: l =>
    if a ∈ seen then jsSetDedupGo seen l else a :: jsSetDedupGo (a :: seen) l

/-- JavaScript `[...new Set(list)]`. -/
def jsSetDedup {α : Type} [DecidableEq α] (l : List α) : List α :=
  jsSetDedupGo [] l

/-- JavaScript `Map.prototype.set` on an insertion-ordered association
list: an existing key keeps its position and gets the new value; a new key
is appended. -/
def mapSet (m : List (List Char × List Char)) (k v : List Char) :
    List (List Char × List Char) :=
  if m.any fun kv => kv.1 = k then
    m.map fun kv => if kv.1 = k then (kv.1, v) else kv
  else m ++ [(k, v)]

/-- The aggregate result of `partition` (`SourceItem` of
`src/util/source-handler/index.ts`; its field list is read off from the
object literal at lines 195-203).  The `typedefs` map is modelled as an
insertion-ordered association list. -/
structure SourceItem where
  macros : List SourcePiece
  sources : List SourcePiece
  comments : List SourcePiece
  literals : List SourcePiece
  dependencies : List (List Char)
  namespaces : List (List Char)
  typedefs : List (List Char × List Char)
deriving DecidableEq, Repr

/-- The `macros` array of the scan: regions pushed with kind macro, in
push order. -/
def rawMacros (evs : List Ev) : List SourcePiece :=
  evs.filterMap fun ev =>
    match ev with
    | .reg .macroK p => some p
    | _ => none

/-- The `literals` array of the scan. -/
def rawLiterals (evs : List Ev) : List SourcePiece :=
  evs.filterMap fun ev =>
    match ev with
    | .reg .literalK p => some p
    | _ => none

/-- The `comments` array of the scan (line and block comments together, in
push order). -/
def rawComments (evs : List Ev) : List SourcePiece :=
  evs.filterMap fun ev =>
    match ev with
    | .reg .commentK p => some p
    | _ => none

/-- The `sources` array of the scan before extraction: the plain-code runs
closed before each region plus the final trailing run. -/
def rawSources (evs : List Ev) : List SourcePiece :=
  evs.filterMap fun ev =>
    match ev with
    | .src p => some p
    | _ => none

/-- The piece-content filter `filterNotEmptyPiece` (line 193). -/
def filterNotEmptyPiece (l : List SourcePiece) : List SourcePiece :=
  l.filter fun p => p.content.length > 0

/-- The extraction and assembly tail of `partition` (lines 169-203):
dependency extraction over macros, namespace then typedef extraction over
sources (each pass rewrites the contents the previous pass left), then
the filters, the dependency dedup and the typedef map. -/
def assemble (evs : List Ev) : SourceItem :=
  let ms := rawMacros evs
  let ss := rawSources evs
  let ms2 := ms.map fun m => (⟨m.start, (importReplace m.content).1⟩ : SourcePiece)
  let deps := (ms.map fun m => (importReplace m.content).2).flatten
  let ss1 := ss.map fun s => (⟨s.start, (nsReplace s.content).1⟩ : SourcePiece)
  let nss := (ss.map fun s => (nsReplace s.content).2).flatten
  let ss2 := ss1.map fun s => (⟨s.start, (tdReplace s.content).1⟩ : SourcePiece)
  let tds := (ss1.map fun s => (tdReplace s.content).2).flatten
  { macros := ms2
  , sources := filterNotEmptyPiece ss2
  , comments := filterNotEmptyPiece (rawComments evs)
  , literals := filterNotEmptyPiece (rawLiterals evs)
  , dependencies := (jsSetDedup deps).filter fun d => d.length > 0
  , namespaces := nss.filter fun n => n.length > 0
  , typedefs := tds.foldl (fun m rv => mapSet m rv.2 rv.1) [] }

/-- Translation of `partition` (`partition.ts` lines 118-204): scan the
text, then extract and assemble.  The two `process.exit` paths surface as
the two `PartitionError` values. -/
def partition (text : List Char) : Except PartitionError SourceItem :=
  (scanLoop text 0 0).map assemble

/-- The `namespaces` field of a successful partition (empty list on the
fatal paths). -/
def partitionNamespaces (text : List Char) : List (List Char) :=
  match partition text with
  | .ok item => item.namespaces
  | .error _ => []

/-- The `macros` field of a successful partition (empty list on the fatal
paths). -/
def partitionMacros (text : List Char) : List SourcePiece :=
  match partition text with
  | .ok item => item.macros
  | .error _ => []

/-- The `sources` field of a successful partition (empty list on the
fatal paths). -/
def partitionSources (text : List Char) : List SourcePiece :=
  match partition text with
  | .ok item => item.sources
  | .error _ => []

/-- The `dependencies` field of a successful partition (empty list on the
fatal paths). -/
def partitionDependencies (text : List Char) : List (List Char) :=
  match partition text with
  | .ok item => item.dependencies
  | .error _ => []

/-- The anchor keyword `#include` of `getImportRegex`. -/
def importAnchor : List Char := ['#', 'i', 'n', 'c', 'l', 'u', 'd', 'e']

/-- The anchor keyword `using` of `getNamespaceRegex`. -/
def usingAnchor : List Char := ['u', 's', 'i', 'n', 'g']

/-- The anchor keyword `typedef` of `getTypedefRegex`. -/
def typedefAnchor : List Char := ['t', 'y', 'p', 'e', 'd', 'e', 'f']

/-- Whether the token occurs anywhere in the text. -/
def containsTok (text tok : List Char) : Bool :=
  (List.range text.length).any fun i => startsWithAt text tok i

/-- The scan's pieces in text order: the source runs and regions as the
loop emits them, finished by the trailing plain run. -/
def rawPieces (text : List Char) : List SourcePiece :=
  match scanLoop text 0 0 with
  | .ok evs => evs.map evPiece
  | .error _ => []

/-- Exact adjacency of a piece list starting at position `n`: each piece
starts where the previous one ended.  This holds for a scan exactly when
no region's backward whitespace extension reached back into the
previously matched region. -/
def alignedB : Nat → List SourcePiece → Bool
  | _, [] => true
  | n, p :: rest => (p.start == n) && alignedB (n + p.content.length) rest

/-- The states `(cursor, lastIndex)` that the scan loop of `partition`
visits on a given text: the initial state, advancing by one past an
unmatched position, and jumping to the end of a matched region. -/
inductive Reaches (text : List Char) : Nat → Nat → Prop
  | init : Reaches text 0 0
  | skip {i li : Nat} : Reaches text i li → i < text.length →
      tryMatchers text i = .noMatch → Reaches text (i + 1) li
  | step {i li : Nat} {k : PieceKind} {p : SourcePiece} : Reaches text i li →
      i < text.length → tryMatchers text i = .piece k p →
      Reaches text (p.start + p.content.length) (p.start + p.content.length)

theorem absorbWsGo_ge (text : List Char) (gas e : Nat) : e ≤ absorbWsGo text gas e := by
  induction gas generalizing e with
  | zero => exact Nat.le_refl e
  | succ n ih =>
    unfold absorbWsGo
    split
    · exact Nat.le_trans (Nat.le_succ e) (ih (e + 1))
    · exact Nat.le_refl e

theorem absorbWsGo_le (text : List Char) (gas e : Nat) (he : e ≤ text.length) :
    absorbWsGo text gas e ≤ text.length := by
  induction gas generalizing e with
  | zero => exact he
  | succ n ih =>
    unfold absorbWsGo
    split
    · next h => exact ih (e + 1) h.1
    · exact he

theorem absorbWs_ge (text : List Char) (e : Nat) : e ≤ absorbWs text e :=
  absorbWsGo_ge text text.length e

theorem absorbWs_le (text : List Char) (e : Nat) (he : e ≤ text.length) :
    absorbWs text e ≤ text.length :=
  absorbWsGo_le text text.length e he

theorem macroScanGo_ge (text : List Char) (gas e : Nat) : e ≤ macroScanGo text gas e := by
  induction gas generalizing e with
  | zero => exact Nat.le_refl e
  | succ n ih =>
    unfold macroScanGo
    split
    · next h =>
      match hg : text[e]? with
      | some c =>
        simp only
        split
        · exact Nat.le_refl e
        · split
          · have h1 := absorbWs_ge text (e + 1)
            have h2 := ih (absorbWs text (e + 1))
            omega
          · have := ih (e + 1); omega
      | none => exact Nat.le_refl e
    · exact Nat.le_refl e

theorem macroScan_ge (text : List Char) (e : Nat) : e ≤ macroScan text e :=
  macroScanGo_ge text text.length e

/-- The gas-out value and the loop-exit value agree, so any sufficient
amount of gas computes the same result. -/
theorem macroScanGo_irrel (text : List Char) (gas gas' e : Nat)
    (h1 : text.length ≤ gas + e) (h2 : text.length ≤ gas' + e) :
    macroScanGo text gas e = macroScanGo text gas' e := by
  induction gas generalizing gas' e with
  | zero =>
    have he : ¬ e < text.length := by omega
    cases gas' with
    | zero => rfl
    | succ m =>
      conv_rhs => unfold macroScanGo
      rw [if_neg he]
      rfl
  | succ n ih =>
    by_cases he : e < text.length
    · cases gas' with
      | zero => omega
      | succ m =>
        conv_lhs => unfold macroScanGo
        conv_rhs => unfold macroScanGo
        rw [if_pos he, if_pos he]
        cases hg : text[e]? with
        | some c =>
          simp only
          by_cases hc1 : c = '\n'
          · rw [if_pos hc1, if_pos hc1]
          · rw [if_neg hc1, if_neg hc1]
            by_cases hc2 : c = '\\'
            · rw [if_pos hc2, if_pos hc2]
              have hws := absorbWs_ge text (e + 1)
              exact ih _ (absorbWs text (e + 1)) (by omega) (by omega)
            · rw [if_neg hc2, if_neg hc2]
              exact ih _ (e + 1) (by omega) (by omega)
        | none => rfl
    · cases gas' with
      | zero =>
        conv_lhs => unfold macroScanGo
        rw [if_neg he]
        rfl
      | succ m =>
        conv_lhs => unfold macroScanGo
        conv_rhs => unfold macroScanGo
        rw [if_neg he, if_neg he]

theorem literalScanGo_ge (text : List Char) (quote : Char) (gas e : Nat) :
    e ≤ literalScanGo text quote gas e := by
  induction gas generalizing e with
  | zero => exact Nat.le_refl e
  | succ n ih =>
    unfold literalScanGo
    split
    · next h =>
      match hg : text[e]? with
      | some c =>
        simp only
        split
        · exact Nat.le_refl e
        · split
          · have := ih (e + 2); omega
          · have := ih (e + 1); omega
      | none => exact Nat.le_refl e
    · exact Nat.le_refl e

theorem literalScan_ge (text : List Char) (quote : Char) (e : Nat) :
    e ≤ literalScan text quote e :=
  literalScanGo_ge text quote text.length e

theorem literalScanGo_irrel (text : List Char) (quote : Char) (gas gas' e : Nat)
    (h1 : text.length ≤ gas + e) (h2 : text.length ≤ gas' + e) :
    literalScanGo text quote gas e = literalScanGo text quote gas' e := by
  induction gas generalizing gas' e with
  | zero =>
    have he : ¬ e < text.length := by omega
    cases gas' with
    | zero => rfl
    | succ m =>
      conv_rhs => unfold literalScanGo
      rw [if_neg he]
      rfl
  | succ n ih =>
    by_cases he : e < text.length
    · cases gas' with
      | zero => omega
      | succ m =>
        conv_lhs => unfold literalScanGo
        conv_rhs => unfold literalScanGo
        rw [if_pos he, if_pos he]
        cases hg : text[e]? with
        | some c =>
          simp only
          by_cases hc1 : c = quote
          · rw [if_pos hc1, if_pos hc1]
          · rw [if_neg hc1, if_neg hc1]
            by_cases hc2 : c = '\\'
            · rw [if_pos hc2, if_pos hc2]
              exact ih _ (e + 2) (by omega) (by omega)
            · rw [if_neg hc2, if_neg hc2]
              exact ih _ (e + 1) (by omega) (by omega)
        | none => rfl
    · cases gas' with
      | zero =>
        conv_lhs => unfold literalScanGo
        rw [if_neg he]
        rfl
      | succ m =>
        conv_lhs => unfold literalScanGo
        conv_rhs => unfold literalScanGo
        rw [if_neg he, if_neg he]

theorem lineCommentScanGo_ge (text : List Char) (gas e : Nat) :
    e ≤ lineCommentScanGo text gas e := by
  induction gas generalizing e with
  | zero => exact Nat.le_refl e
  | succ n ih =>
    unfold lineCommentScanGo
    split
    · split
      · exact Nat.le_refl e
      · have := ih (e + 1); omega
    · exact Nat.le_refl e

theorem lineCommentScanGo_le (text : List Char) (gas e : Nat) (he : e ≤ text.length) :
    lineCommentScanGo text gas e ≤ text.length := by
  induction gas generalizing e with
  | zero => exact he
  | succ n ih =>
    unfold lineCommentScanGo
    split
    · next h =>
      split
      · omega
      · exact ih (e + 1) h
    · exact he

theorem lineCommentScan_ge (text : List Char) (e : Nat) : e ≤ lineCommentScan text e :=
  lineCommentScanGo_ge text text.length e

theorem lineCommentScan_le (text : List Char) (e : Nat) (he : e ≤ text.length) :
    lineCommentScan text e ≤ text.length :=
  lineCommentScanGo_le text text.length e he

theorem findCloseGo_ge (text : List Char) (close : List Char) (gas e : Nat) :
    e ≤ findCloseGo text close gas e := by
  induction gas generalizing e with
  | zero => exact Nat.le_refl e
  | succ n ih =>
    unfold findCloseGo
    split
    · split
      · exact Nat.le_refl e
      · have := ih (e + 1); omega
    · exact Nat.le_refl e

theorem findClose_ge (text : List Char) (close : List Char) (e : Nat) :
    e ≤ findClose text close e :=
  findCloseGo_ge text close text.length e

theorem findCloseGo_irrel (text : List Char) (close : List Char) (gas gas' e : Nat)
    (h1 : text.length ≤ gas + e) (h2 : text.length ≤ gas' + e) :
    findCloseGo text close gas e = findCloseGo text close gas' e := by
  induction gas generalizing gas' e with
  | zero =>
    have he : ¬ e < text.length := by omega
    cases gas' with
    | zero => rfl
    | succ m =>
      conv_rhs => unfold findCloseGo
      rw [if_neg he]
      rfl
  | succ n ih =>
    by_cases he : e < text.length
    · cases gas' with
      | zero => omega
      | succ m =>
        conv_lhs => unfold findCloseGo
        conv_rhs => unfold findCloseGo
        rw [if_pos he, if_pos he]
        by_cases hc : startsWithAt text close e = true
        · rw [if_pos hc, if_pos hc]
        · rw [if_neg (by simp [hc]), if_neg (by simp [hc])]
          exact ih _ (e + 1) (by omega) (by omega)
    · cases gas' with
      | zero =>
        conv_lhs => unfold findCloseGo
        rw [if_neg he]
        rfl
      | succ m =>
        conv_lhs => unfold findCloseGo
        conv_rhs => unfold findCloseGo
        rw [if_neg he, if_neg he]

theorem absorbHorizGo_ge (text : List Char) (gas e : Nat) : e ≤ absorbHorizGo text gas e := by
  induction gas generalizing e with
  | zero => exact Nat.le_refl e
  | succ n ih =>
    unfold absorbHorizGo
    split
    · exact Nat.le_trans (Nat.le_succ e) (ih (e + 1))
    · exact Nat.le_refl e

theorem absorbHorizGo_le (text : List Char) (gas e : Nat) (he : e ≤ text.length) :
    absorbHorizGo text gas e ≤ text.length := by
  induction gas generalizing e with
  | zero => exact he
  | succ n ih =>
    unfold absorbHorizGo
    split
    · next h => exact ih (e + 1) h.1
    · exact he

theorem absorbHoriz_ge (text : List Char) (e : Nat) : e ≤ absorbHoriz text e :=
  absorbHorizGo_ge text text.length e

theorem absorbHoriz_le (text : List Char) (e : Nat) (he : e ≤ text.length) :
    absorbHoriz text e ≤ text.length :=
  absorbHorizGo_le text text.length e he

theorem absorbNewlinesGo_ge (text : List Char) (gas e : Nat) :
    e ≤ absorbNewlinesGo text gas e := by
  induction gas generalizing e with
  | zero => exact Nat.le_refl e
  | succ n ih =>
    unfold absorbNewlinesGo
    split
    · exact Nat.le_trans (Nat.le_succ e) (ih (e + 1))
    · exact Nat.le_refl e

theorem absorbNewlinesGo_le (text : List Char) (gas e : Nat) (he : e ≤ text.length) :
    absorbNewlinesGo text gas e ≤ text.length := by
  induction gas generalizing e with
  | zero => exact he
  | succ n ih =>
    unfold absorbNewlinesGo
    split
    · next h => exact ih (e + 1) h.1
    · exact he

theorem absorbNewlines_ge (text : List Char) (e : Nat) : e ≤ absorbNewlines text e :=
  absorbNewlinesGo_ge text text.length e

theorem absorbNewlines_le (text : List Char) (e : Nat) (he : e ≤ text.length) :
    absorbNewlines text e ≤ text.length :=
  absorbNewlinesGo_le text text.length e he

/-! Basic facts about slices, prefix tests and the backward extension. -/

theorem sliceList_length (text : List Char) (a b : Nat) :
    (sliceList text a b).length = min b text.length - a := by
  simp [sliceList]

theorem sliceList_self (text : List Char) (a b : Nat) :
    sliceList text a b = sliceList text a (a + (sliceList text a b).length) := by
  rcases Nat.le_total a (min b text.length) with h | h
  · have hlen : (sliceList text a b).length = min b text.length - a := sliceList_length text a b
    have hm : a + (sliceList text a b).length = min b text.length := by omega
    rw [hm]
    unfold sliceList
    rcases Nat.le_total b text.length with hb | hb
    · rw [Nat.min_eq_left hb]
    · rw [Nat.min_eq_right hb, List.take_of_length_le hb, List.take_of_length_le (Nat.le_refl _)]
  · have hlen : (sliceList text a b).length = min b text.length - a := sliceList_length text a b
    have h0 : (sliceList text a b).length = 0 := by omega
    rw [h0]
    have h1 : sliceList text a b = [] := List.eq_nil_of_length_eq_zero h0
    have h2 : (sliceList text a (a + 0)).length = min (a + 0) text.length - a :=
      sliceList_length text a (a + 0)
    have h3 : sliceList text a (a + 0) = [] := by
      apply List.eq_nil_of_length_eq_zero
      omega
    rw [h1, h3]

theorem sliceList_length_le (text : List Char) (a b : Nat) :
    (sliceList text a b).length ≤ text.length - a := by
  have := sliceList_length text a b
  omega

theorem startsWithAt_eq (text tok : List Char) (i : Nat)
    (h : startsWithAt text tok i = true) : (text.drop i).take tok.length = tok := by
  simpa [startsWithAt] using h

theorem startsWithAt_get (text tok : List Char) (i k : Nat)
    (h : startsWithAt text tok i = true) (hk : k < tok.length) :
    text[i + k]? = tok[k]? := by
  have h' := startsWithAt_eq text tok i h
  calc text[i + k]? = (text.drop i)[k]? := by rw [List.getElem?_drop]
    _ = ((text.drop i).take tok.length)[k]? := by
        rw [List.getElem?_take_of_lt hk]
    _ = tok[k]? := by rw [h']

theorem startsWithAt_length (text tok : List Char) (i : Nat)
    (h : startsWithAt text tok i = true) (hne : tok ≠ []) :
    i + tok.length ≤ text.length := by
  have h' := startsWithAt_eq text tok i h
  have hl := congrArg List.length h'
  simp only [List.length_take, List.length_drop] at hl
  have hpos : 0 < tok.length := List.length_pos.mpr hne
  omega

theorem backoffStart_le (text : List Char) (s : Nat) : backoffStart text s ≤ s := by
  induction s with
  | zero => simp [backoffStart]
  | succ n ih =>
    unfold backoffStart
    split
    · omega
    · exact Nat.le_refl _

theorem backoffStart_gap (text : List Char) (s k : Nat)
    (h1 : backoffStart text s ≤ k) (h2 : k < s) : isHoriz (text[k]?) = true := by
  induction s with
  | zero => omega
  | succ n ih =>
    unfold backoffStart at h1
    split at h1
    · next hh =>
      rcases Nat.lt_succ_iff_lt_or_eq.mp h2 with hlt | heq
      · exact ih h1 hlt
      · subst heq; exact hh
    · omega

theorem isHoriz_spec (o : Option Char) (h : isHoriz o = true) :
    o = some '\t' ∨ o = some ' ' := by
  match o with
  | some c =>
    simp only [isHoriz, Bool.or_eq_true, decide_eq_true_eq] at h
    rcases h with h | h <;> simp [h]
  | none => simp [isHoriz] at h

/-- A step equation for the macro scan at an ordinary character. -/
theorem macroScan_step (text : List Char) (s : Nat) (c : Char)
    (hs : s < text.length) (hg : text[s]? = some c) (h1 : c ≠ '\n') (h2 : c ≠ '\\') :
    macroScan text s = macroScan text (s + 1) := by
  unfold macroScan
  obtain ⟨g, hgas⟩ : ∃ g, text.length = g + 1 := ⟨text.length - 1, by omega⟩
  rw [hgas]
  conv_lhs => unfold macroScanGo
  rw [if_pos hs, hg]
  simp only [h1, if_false, h2]
  exact macroScanGo_irrel text g (g + 1) (s + 1) (by omega) (by omega)

/-- If the characters between `s` and `i` are horizontal whitespace and the
character at `i` is neither a newline nor a backslash, the macro scan from
`s` proceeds past `i`. -/
theorem macroScan_past (text : List Char) (i : Nat) (c : Char)
    (hi : i < text.length) (hc : text[i]? = some c) (hn : c ≠ '\n') (hb : c ≠ '\\')
    (s : Nat) (hs : s ≤ i)
    (hgap : ∀ k, s ≤ k → k < i → isHoriz (text[k]?) = true) :
    i + 1 ≤ macroScan text s := by
  by_cases heq : s = i
  · subst heq
    rw [macroScan_step text s c hi hc hn hb]
    exact macroScan_ge text (s + 1)
  · have hlt : s < i := Nat.lt_of_le_of_ne hs heq
    have hh := hgap s (Nat.le_refl s) hlt
    rcases isHoriz_spec _ hh with hg | hg
    · rw [macroScan_step text s '\t' (Nat.lt_trans hlt hi) hg (by decide) (by decide)]
      exact macroScan_past text i c hi hc hn hb (s + 1) hlt
        (fun k hk1 hk2 => hgap k (Nat.le_of_succ_le hk1) hk2)
    · rw [macroScan_step text s ' ' (Nat.lt_trans hlt hi) hg (by decide) (by decide)]
      exact macroScan_past text i c hi hc hn hb (s + 1) hlt
        (fun k hk1 hk2 => hgap k (Nat.le_of_succ_le hk1) hk2)
termination_by i - s

/-- A step equation for the close-token search when the token does not
match at the current index. -/
theorem findClose_step (text close : List Char) (s : Nat)
    (hs : s < text.length) (hm : startsWithAt text close s = false) :
    findClose text close s = findClose text close (s + 1) := by
  unfold findClose
  obtain ⟨g, hgas⟩ : ∃ g, text.length = g + 1 := ⟨text.length - 1, by omega⟩
  rw [hgas]
  conv_lhs => unfold findCloseGo
  rw [if_pos hs, if_neg (by simp [hm])]
  exact findCloseGo_irrel text close g (g + 1) (s + 1) (by omega) (by omega)

/-- When the search stops before the end of the text, the close token
matches where it stopped. -/
theorem findCloseGo_spec (text close : List Char) (gas e : Nat)
    (hinv : text.length ≤ gas + e)
    (h : findCloseGo text close gas e < text.length) :
    startsWithAt text close (findCloseGo text close gas e) = true := by
  induction gas generalizing e with
  | zero =>
    unfold findCloseGo at h
    omega
  | succ n ih =>
    unfold findCloseGo at h ⊢
    split at h
    · next hlt =>
      split at h
      · next hm => simp [hm]
      · next hm =>
        simp only [if_pos hlt, if_neg hm]
        exact ih (e + 1) (by omega) h
    · omega

theorem findClose_spec (text close : List Char) (e : Nat)
    (h : findClose text close e < text.length) :
    startsWithAt text close (findClose text close e) = true :=
  findCloseGo_spec text close text.length e (by omega) h

/-- If the closing token `*/` has not yet appeared, but position `i` holds
`/` and position `i + 1` holds `*`, and everything between `s` and `i` is
horizontal whitespace, then the close-token search started at `s` cannot
stop before `i + 1`. -/
theorem findClose_past (text : List Char) (i : Nat) (hi : i < text.length)
    (h0 : text[i]? = some '/') (h1 : text[i + 1]? = some '*')
    (s : Nat) (hgap : ∀ k, s ≤ k → k < i → isHoriz (text[k]?) = true) :
    i + 1 ≤ findClose text ['*', '/'] s := by
  by_cases hs : i + 1 ≤ s
  · exact Nat.le_trans hs (findClose_ge text _ s)
  · have hsi : s ≤ i := by omega
    have hslen : s < text.length := Nat.lt_of_le_of_lt hsi hi
    have hfalse : startsWithAt text ['*', '/'] s = false := by
      by_contra hcon
      have htrue : startsWithAt text ['*', '/'] s = true := by
        simpa using hcon
      have hstar : text[s]? = some '*' := by
        have := startsWithAt_get text ['*', '/'] s 0 htrue (by decide)
        simpa using this
      rcases Nat.lt_or_ge s i with hlt | hge
      · have hh := hgap s (Nat.le_refl s) hlt
        rcases isHoriz_spec _ hh with hg | hg <;> rw [hg] at hstar <;> simp at hstar
      · have : s = i := by omega
        subst this
        rw [h0] at hstar
        simp at hstar
    rw [findClose_step text ['*', '/'] s hslen hfalse]
    exact findClose_past text i hi h0 h1 (s + 1)
      (fun k hk1 hk2 => hgap k (Nat.le_of_succ_le hk1) hk2)
termination_by i + 1 - s

theorem matchMacro_eq (text : List Char) (i : Nat) :
    matchMacro text i =
      ⟨backoffStart text i,
        sliceList text (backoffStart text i) (macroScan text (backoffStart text i + 1) + 1)⟩ :=
  rfl

theorem matchLiteral_eq (text : List Char) (i : Nat) :
    matchLiteral text i =
      if literalScan text (text.getD i ' ') (i + 1) ≥ text.length then none
      else some ⟨i, sliceList text i (literalScan text (text.getD i ' ') (i + 1) + 1)⟩ :=
  rfl

theorem matchLineComment_eq (text : List Char) (i : Nat) (lc : List Char) :
    matchLineComment text i lc =
      ⟨i, sliceList text i (lineCommentScan text (i + lc.length))⟩ :=
  rfl

theorem matchBlockComment_eq (text : List Char) (i : Nat) (bc : List Char × List Char) :
    matchBlockComment text i bc =
      if findClose text bc.2 (backoffStart text i + bc.1.length) ≥ text.length then none
      else some ⟨backoffStart text i,
        sliceList text (backoffStart text i)
          (absorbNewlines text
            (absorbHoriz text
              (findClose text bc.2 (backoffStart text i + bc.1.length) + bc.2.length)))⟩ :=
  rfl

/-- Whenever a matcher returns a region at scan position `i`, the region
starts no later than `i`, ends strictly past `i`, and ends within the
text.  This is the strict-forward-progress property of the scan. -/
theorem tryMatchers_progress (text : List Char) (i : Nat) (k : PieceKind) (p : SourcePiece)
    (hi : i < text.length) (h : tryMatchers text i = .piece k p) :
    p.start ≤ i ∧ i < p.start + p.content.length ∧
      p.start + p.content.length ≤ text.length := by
  unfold tryMatchers at h
  by_cases h1 : startsWithAt text languageConfig.macroMark i = true
  · rw [if_pos h1] at h
    simp only [StepRes.piece.injEq] at h
    obtain ⟨-, hp⟩ := h
    subst hp
    rw [matchMacro_eq]
    have hsle : backoffStart text i ≤ i := backoffStart_le text i
    have hci : text[i]? = some '#' := by
      have := startsWithAt_get text languageConfig.macroMark i 0 h1 (by decide)
      simpa [languageConfig] using this
    have he : i + 1 ≤ macroScan text (backoffStart text i + 1) := by
      by_cases hcase : backoffStart text i + 1 ≤ i
      · exact macroScan_past text i '#' hi hci (by decide) (by decide) _ hcase
          (fun kk hk1 hk2 => backoffStart_gap text i kk (by omega) hk2)
      · have : backoffStart text i = i := by omega
        rw [this]
        exact macroScan_ge text (i + 1)
    have hlen := sliceList_length text (backoffStart text i)
      (macroScan text (backoffStart text i + 1) + 1)
    simp only
    omega
  · rw [if_neg h1] at h
    by_cases h2 : quoteAt text i = true
    · rw [if_pos h2] at h
      cases hm : matchLiteral text i with
      | none => rw [hm] at h; simp at h
      | some p' =>
        rw [hm] at h
        simp only [StepRes.piece.injEq] at h
        obtain ⟨-, hp⟩ := h
        subst hp
        rw [matchLiteral_eq] at hm
        split at hm
        · simp at hm
        · next hterm =>
          simp only [Option.some.injEq] at hm
          subst hm
          have he := literalScan_ge text (text.getD i ' ') (i + 1)
          have hlen := sliceList_length text i
            (literalScan text (text.getD i ' ') (i + 1) + 1)
          simp only
          omega
    · rw [if_neg h2] at h
      by_cases h3 : startsWithAt text languageConfig.inlineCommentMark i = true
      · rw [if_pos h3] at h
        simp only [StepRes.piece.injEq] at h
        obtain ⟨-, hp⟩ := h
        subst hp
        rw [matchLineComment_eq]
        have hbound : i + languageConfig.inlineCommentMark.length ≤ text.length :=
          startsWithAt_length text _ i h3 (by simp [languageConfig])
        have h2len : languageConfig.inlineCommentMark.length = 2 := by
          simp [languageConfig]
        have he := lineCommentScan_ge text (i + languageConfig.inlineCommentMark.length)
        have hle := lineCommentScan_le text (i + languageConfig.inlineCommentMark.length)
          (by omega)
        have hlen := sliceList_length text i
          (lineCommentScan text (i + languageConfig.inlineCommentMark.length))
        simp only
        omega
      · rw [if_neg h3] at h
        by_cases h4 : startsWithAt text languageConfig.blockCommentMark.1 i = true
        · rw [if_pos h4] at h
          cases hm : matchBlockComment text i languageConfig.blockCommentMark with
          | none => rw [hm] at h; simp at h
          | some p' =>
            rw [hm] at h
            simp only [StepRes.piece.injEq] at h
            obtain ⟨-, hp⟩ := h
            subst hp
            rw [matchBlockComment_eq] at hm
            split at hm
            · simp at hm
            · next hterm =>
              simp only [Option.some.injEq] at hm
              subst hm
              have hsle : backoffStart text i ≤ i := backoffStart_le text i
              have hc0 : text[i]? = some '/' := by
                have := startsWithAt_get text languageConfig.blockCommentMark.1 i 0 h4
                  (by decide)
                simpa [languageConfig] using this
              have hc1 : text[i + 1]? = some '*' := by
                have := startsWithAt_get text languageConfig.blockCommentMark.1 i 1 h4
                  (by decide)
                simpa [languageConfig] using this
              have hopen2 : languageConfig.blockCommentMark.1.length = 2 := by
                simp [languageConfig]
              have hclose2 : languageConfig.blockCommentMark.2.length = 2 := by
                simp [languageConfig]
              have hcl : findClose text languageConfig.blockCommentMark.2
                  (backoffStart text i + languageConfig.blockCommentMark.1.length)
                  < text.length := by omega
              have he : i + 1 ≤ findClose text languageConfig.blockCommentMark.2
                  (backoffStart text i + languageConfig.blockCommentMark.1.length) := by
                have : languageConfig.blockCommentMark.2 = ['*', '/'] := by
                  simp [languageConfig]
                rw [this]
                exact findClose_past text i hi hc0 hc1 _
                  (fun kk hk1 hk2 => backoffStart_gap text i kk (by omega) hk2)
              have hcls := findClose_spec text languageConfig.blockCommentMark.2
                (backoffStart text i + languageConfig.blockCommentMark.1.length) hcl
              have hclen : findClose text languageConfig.blockCommentMark.2
                    (backoffStart text i + languageConfig.blockCommentMark.1.length)
                    + languageConfig.blockCommentMark.2.length ≤ text.length :=
                startsWithAt_length text _ _ hcls (by simp [languageConfig])
              have he3ge := absorbHoriz_ge text
                (findClose text languageConfig.blockCommentMark.2
                  (backoffStart text i + languageConfig.blockCommentMark.1.length)
                  + languageConfig.blockCommentMark.2.length)
              have he3le := absorbHoriz_le text
                (findClose text languageConfig.blockCommentMark.2
                  (backoffStart text i + languageConfig.blockCommentMark.1.length)
                  + languageConfig.blockCommentMark.2.length) (by omega)
              have he4ge := absorbNewlines_ge text
                (absorbHoriz text
                  (findClose text languageConfig.blockCommentMark.2
                    (backoffStart text i + languageConfig.blockCommentMark.1.length)
                    + languageConfig.blockCommentMark.2.length))
              have he4le := absorbNewlines_le text
                (absorbHoriz text
                  (findClose text languageConfig.blockCommentMark.2
                    (backoffStart text i + languageConfig.blockCommentMark.1.length)
                    + languageConfig.blockCommentMark.2.length)) (by omega)
              have hlen := sliceList_length text (backoffStart text i)
                (absorbNewlines text
                  (absorbHoriz text
                    (findClose text languageConfig.blockCommentMark.2
                      (backoffStart text i + languageConfig.blockCommentMark.1.length)
                      + languageConfig.blockCommentMark.2.length)))
              simp only
              omega
        · rw [if_neg h4] at h
          simp at h

theorem skipWhileGo_ge (pc : Char → Bool) (text : List Char) (gas i : Nat) :
    i ≤ skipWhileGo pc text gas i := by
  induction gas generalizing i with
  | zero => exact Nat.le_refl i
  | succ n ih =>
    unfold skipWhileGo
    split
    · next h =>
      match hg : text[i]? with
      | some c =>
        simp only
        split
        · have := ih (i + 1); omega
        · exact Nat.le_refl i
      | none => exact Nat.le_refl i
    · exact Nat.le_refl i

theorem skipWhileGo_le (pc : Char → Bool) (text : List Char) (gas i : Nat)
    (hi : i ≤ text.length) : skipWhileGo pc text gas i ≤ text.length := by
  induction gas generalizing i with
  | zero => exact hi
  | succ n ih =>
    unfold skipWhileGo
    split
    · next h =>
      match hg : text[i]? with
      | some c =>
        simp only
        split
        · exact ih (i + 1) h
        · exact hi
      | none => exact hi
    · exact hi

theorem skipWhile_ge (pc : Char → Bool) (text : List Char) (i : Nat) :
    i ≤ skipWhile pc text i :=
  skipWhileGo_ge pc text text.length i

theorem skipWhile_le (pc : Char → Bool) (text : List Char) (i : Nat)
    (hi : i ≤ text.length) : skipWhile pc text i ≤ text.length :=
  skipWhileGo_le pc text text.length i hi

theorem parseTok_eq (text tok : List Char) (i j : Nat)
    (h : parseTok text tok i = some j) :
    j = i + tok.length ∧ startsWithAt text tok i = true := by
  unfold parseTok at h
  split at h
  · next hh => exact ⟨by injection h with h'; omega, hh⟩
  · simp at h

theorem getElem?_lt (l : List Char) (n : Nat) (c : Char) (h : l[n]? = some c) :
    n < l.length := by
  by_contra hc
  rw [List.getElem?_eq_none (by omega)] at h
  simp at h

theorem importMatchAt_bounds (text : List Char) (i e : Nat) (cap : List Char)
    (h : importMatchAt text i = some (e, cap)) :
    i < e ∧ e ≤ text.length ∧
      startsWithAt text ['#', 'i', 'n', 'c', 'l', 'u', 'd', 'e'] i = true := by
  simp only [importMatchAt] at h
  split at h
  · exact absurd h (by simp)
  · next j hj =>
    obtain ⟨hje, hanchor⟩ := parseTok_eq _ _ _ _ hj
    split at h
    · exact absurd h (by simp)
    · next oc hoc =>
      split at h
      · split at h
        · exact absurd h (by simp)
        · next hk =>
          split at h
          · exact absurd h (by simp)
          · next cc hcc =>
            split at h
            · split at h
              · next hnl =>
                simp only [Option.some.injEq, Prod.mk.injEq] at h
                obtain ⟨he1, -⟩ := h
                have hm := getElem?_lt text _ _ hnl
                have h1 := skipWhile_ge isWsChar text j
                have h2 := skipWhile_ge isPathChar text
                  (skipWhile isWsChar text j + 1)
                have h3 := skipWhile_ge (fun c => isWsChar c && !(c = '\n')) text
                  (skipWhile isPathChar text (skipWhile isWsChar text j + 1) + 1)
                constructor
                · omega
                · constructor
                  · omega
                  · exact hanchor
              · exact absurd h (by simp)
            · exact absurd h (by simp)
      · exact absurd h (by simp)

theorem nsMatchAt_bounds (text : List Char) (i e : Nat) (cap : List Char)
    (h : nsMatchAt text i = some (e, cap)) :
    i < e ∧ e ≤ text.length ∧
      startsWithAt text ['u', 's', 'i', 'n', 'g'] i = true := by
  simp only [nsMatchAt] at h
  split at h
  · exact absurd h (by simp)
  · next j hj =>
    obtain ⟨hje, hanchor⟩ := parseTok_eq _ _ _ _ hj
    split at h
    · exact absurd h (by simp)
    · next hj2 =>
      split at h
      · exact absurd h (by simp)
      · next j3 hj3 =>
        obtain ⟨hj3e, -⟩ := parseTok_eq _ _ _ _ hj3
        split at h
        · exact absurd h (by simp)
        · next hj4 =>
          split at h
          · exact absurd h (by simp)
          · next hk =>
            split at h
            · next hsemi =>
              simp only [Option.some.injEq, Prod.mk.injEq] at h
              obtain ⟨he1, -⟩ := h
              have hsl := getElem?_lt text _ _ hsemi
              have h1 := skipWhile_ge isWsChar text j
              have h2 := skipWhile_ge isWsChar text j3
              have h3 := skipWhile_ge isWordChar text (skipWhile isWsChar text j3)
              have h4 := skipWhile_ge isWsChar text
                (skipWhile isWordChar text (skipWhile isWsChar text j3))
              have h5 := skipWhile_ge isWsChar text
                (skipWhile isWsChar text
                  (skipWhile isWordChar text (skipWhile isWsChar text j3)) + 1)
              have h6 := skipWhile_le isWsChar text
                (skipWhile isWsChar text
                  (skipWhile isWordChar text (skipWhile isWsChar text j3)) + 1)
                (by omega)
              refine ⟨by omega, by omega, hanchor⟩
            · exact absurd h (by simp)

theorem tdTail_bounds (text : List Char) (p0 a e : Nat) (c1 c2 : List Char)
    (h : tdTail text p0 a = some (e, c1, c2)) :
    p0 < e ∧ e ≤ text.length := by
  simp only [tdTail] at h
  split at h
  · exact absurd h (by simp)
  · next hq2 =>
    split at h
    · exact absurd h (by simp)
    · next hr =>
      split at h
      · next hsemi =>
        simp only [Option.some.injEq, Prod.mk.injEq] at h
        obtain ⟨he1, -⟩ := h
        have hsl := getElem?_lt text _ _ hsemi
        have h1 := skipWhile_ge isWsChar text (p0 + a)
        have h2 := skipWhile_ge isWordChar text (skipWhile isWsChar text (p0 + a))
        have h3 := skipWhile_ge isWsChar text
          (skipWhile isWordChar text (skipWhile isWsChar text (p0 + a)))
        have h4 := skipWhile_ge isWsChar text
          (skipWhile isWsChar text
            (skipWhile isWordChar text (skipWhile isWsChar text (p0 + a))) + 1)
        have h5 := skipWhile_le isWsChar text
          (skipWhile isWsChar text
            (skipWhile isWordChar text (skipWhile isWsChar text (p0 + a))) + 1)
          (by omega)
        omega
      · exact absurd h (by simp)

theorem tdSearch_bounds (text : List Char) (p0 a e : Nat) (c1 c2 : List Char)
    (h : tdSearch text p0 a = some (e, c1, c2)) :
    p0 < e ∧ e ≤ text.length := by
  induction a with
  | zero => exact absurd h (by simp [tdSearch])
  | succ n ih =>
    unfold tdSearch at h
    split at h
    · next r hr =>
      injection h with h'
      subst h'
      exact tdTail_bounds text p0 (n + 1) e c1 c2 hr
    · exact ih h

theorem tdWsSearch_bounds (text : List Char) (j wm e : Nat) (c1 c2 : List Char)
    (h : tdWsSearch text j wm = some (e, c1, c2)) : j < e ∧ e ≤ text.length := by
  induction wm with
  | zero => exact absurd h (by simp [tdWsSearch])
  | succ w ih =>
    unfold tdWsSearch at h
    split at h
    · next r hr =>
      injection h with h'
      subst h'
      have hb := tdSearch_bounds text (j + w + 1) _ e c1 c2 hr
      exact ⟨by omega, hb.2⟩
    · exact ih h

theorem typedefMatchAt_bounds (text : List Char) (i e : Nat) (c1 c2 : List Char)
    (h : typedefMatchAt text i = some (e, c1, c2)) :
    i < e ∧ e ≤ text.length ∧
      startsWithAt text ['t', 'y', 'p', 'e', 'd', 'e', 'f'] i = true := by
  simp only [typedefMatchAt] at h
  split at h
  · exact absurd h (by simp)
  · next j hj =>
    obtain ⟨hje, hanchor⟩ := parseTok_eq _ _ _ _ hj
    have hb := tdWsSearch_bounds text j _ e c1 c2 h
    exact ⟨by omega, hb.2, hanchor⟩

theorem findFromGo_spec {α : Type} (matchAt : List Char → Nat → Option (Nat × α))
    (text : List Char) (gas pos j e : Nat) (cap : α)
    (h : findFromGo matchAt text gas pos = some (j, e, cap)) :
    pos ≤ j ∧ j < text.length ∧ matchAt text j = some (e, cap) := by
  induction gas generalizing pos with
  | zero => exact absurd h (by simp [findFromGo])
  | succ n ih =>
    unfold findFromGo at h
    split at h
    · next hlt =>
      split at h
      · next e' cap' he =>
        simp only [Option.some.injEq, Prod.mk.injEq] at h
        obtain ⟨h1, h2, h3⟩ := h
        subst h1; subst h2; subst h3
        exact ⟨Nat.le_refl _, hlt, he⟩
      · have := ih (pos + 1) h
        exact ⟨by omega, this.2⟩
    · exact absurd h (by simp)

theorem findFrom_spec {α : Type} (matchAt : List Char → Nat → Option (Nat × α))
    (text : List Char) (pos j e : Nat) (cap : α)
    (h : findFrom matchAt text pos = some (j, e, cap)) :
    pos ≤ j ∧ matchAt text j = some (e, cap) := by
  have := findFromGo_spec matchAt text text.length pos j e cap h
  exact ⟨this.1, this.2.2⟩

/-! Further facts used by the claim theorems. -/

theorem drop_eq_slice_append (text : List Char) (a b : Nat) (hab : a ≤ b)
    (hb : b ≤ text.length) : text.drop a = sliceList text a b ++ text.drop b := by
  conv_lhs => rw [← List.take_append_drop b text]
  rw [List.drop_append_eq_append_drop]
  have hl : (text.take b).length = b := by
    rw [List.length_take]
    omega
  rw [hl]
  have : a - b = 0 := by omega
  rw [this, List.drop_zero]
  rfl

theorem absorbWsGo_gap (text : List Char) (gas e k : Nat) (h1 : e ≤ k)
    (h2 : k < absorbWsGo text gas e) : isWs (text[k]?) = true := by
  induction gas generalizing e with
  | zero => exact absurd h2 (by unfold absorbWsGo; omega)
  | succ n ih =>
    unfold absorbWsGo at h2
    split at h2
    · next hc =>
      rcases Nat.lt_or_ge k (e + 1) with hk | hk
      · have : k = e := by omega
        subst this
        exact hc.2
      · exact ih (e + 1) hk h2
    · omega

theorem absorbWs_gap (text : List Char) (e k : Nat) (h1 : e ≤ k)
    (h2 : k < absorbWs text e) : isWs (text[k]?) = true :=
  absorbWsGo_gap text text.length e k h1 h2

theorem absorbHorizGo_gap (text : List Char) (gas e k : Nat) (h1 : e ≤ k)
    (h2 : k < absorbHorizGo text gas e) : isHoriz (text[k]?) = true := by
  induction gas generalizing e with
  | zero => exact absurd h2 (by unfold absorbHorizGo; omega)
  | succ n ih =>
    unfold absorbHorizGo at h2
    split at h2
    · next hc =>
      rcases Nat.lt_or_ge k (e + 1) with hk | hk
      · have : k = e := by omega
        subst this
        exact hc.2
      · exact ih (e + 1) hk h2
    · omega

theorem absorbHoriz_gap (text : List Char) (e k : Nat) (h1 : e ≤ k)
    (h2 : k < absorbHoriz text e) : isHoriz (text[k]?) = true :=
  absorbHorizGo_gap text text.length e k h1 h2

theorem absorbNewlinesGo_gap (text : List Char) (gas e k : Nat) (h1 : e ≤ k)
    (h2 : k < absorbNewlinesGo text gas e) : text[k]? = some '\n' := by
  induction gas generalizing e with
  | zero => exact absurd h2 (by unfold absorbNewlinesGo; omega)
  | succ n ih =>
    unfold absorbNewlinesGo at h2
    split at h2
    · next hc =>
      rcases Nat.lt_or_ge k (e + 1) with hk | hk
      · have : k = e := by omega
        subst this
        exact hc.2
      · exact ih (e + 1) hk h2
    · omega

theorem absorbNewlines_gap (text : List Char) (e k : Nat) (h1 : e ≤ k)
    (h2 : k < absorbNewlines text e) : text[k]? = some '\n' :=
  absorbNewlinesGo_gap text text.length e k h1 h2

/-- At a backslash the macro scan absorbs the following whitespace run
(steps back one and lets the loop increment: net effect, it continues at
the end of the run). -/
theorem macroScan_backslash (text : List Char) (e : Nat)
    (he : e < text.length) (hg : text[e]? = some '\\') :
    macroScan text e = macroScan text (absorbWs text (e + 1)) := by
  unfold macroScan
  obtain ⟨g, hgas⟩ : ∃ g, text.length = g + 1 := ⟨text.length - 1, by omega⟩
  rw [hgas]
  conv_lhs => unfold macroScanGo
  rw [if_pos he, hg]
  have hne : ¬ (('\\' : Char) = '\n') := by decide
  simp only [hne, if_false, if_true]
  have := absorbWs_ge text (e + 1)
  exact macroScanGo_irrel text g (g + 1) (absorbWs text (e + 1)) (by omega) (by omega)

/-- At a backslash (other than the quote itself) the literal scan skips
the next character as escaped. -/
theorem literalScan_backslash (text : List Char) (quote : Char) (e : Nat)
    (hq : quote ≠ '\\') (he : e < text.length) (hg : text[e]? = some '\\') :
    literalScan text quote e = literalScan text quote (e + 2) := by
  unfold literalScan
  obtain ⟨g, hgas⟩ : ∃ g, text.length = g + 1 := ⟨text.length - 1, by omega⟩
  rw [hgas]
  conv_lhs => unfold literalScanGo
  rw [if_pos he, hg]
  have hne : ¬ (('\\' : Char) = quote) := fun hcon => hq hcon.symm
  simp only [hne, if_false, if_true]
  exact literalScanGo_irrel text quote g (g + 1) (e + 2) (by omega) (by omega)

/-- At the closing quote the literal scan stops. -/
theorem literalScan_close (text : List Char) (quote : Char) (e : Nat)
    (he : e < text.length) (hg : text[e]? = some quote) :
    literalScan text quote e = e := by
  unfold literalScan
  obtain ⟨g, hgas⟩ : ∃ g, text.length = g + 1 := ⟨text.length - 1, by omega⟩
  rw [hgas]
  conv_lhs => unfold literalScanGo
  rw [if_pos he, hg]
  simp

/-- Whatever piece a matcher returns, its content is the slice of the text
at the positions the piece claims: from `start`, as long as the content. -/
theorem tryMatchers_content (text : List Char) (i : Nat) (k : PieceKind) (p : SourcePiece)
    (h : tryMatchers text i = .piece k p) :
    p.content = sliceList text p.start (p.start + p.content.length) := by
  unfold tryMatchers at h
  by_cases h1 : startsWithAt text languageConfig.macroMark i = true
  · rw [if_pos h1] at h
    simp only [StepRes.piece.injEq] at h
    obtain ⟨-, hp⟩ := h
    subst hp
    rw [matchMacro_eq]
    exact sliceList_self text _ _
  · rw [if_neg h1] at h
    by_cases h2 : quoteAt text i = true
    · rw [if_pos h2] at h
      cases hm : matchLiteral text i with
      | none => rw [hm] at h; simp at h
      | some p' =>
        rw [hm] at h
        simp only [StepRes.piece.injEq] at h
        obtain ⟨-, hp⟩ := h
        subst hp
        rw [matchLiteral_eq] at hm
        split at hm
        · simp at hm
        · simp only [Option.some.injEq] at hm
          subst hm
          exact sliceList_self text _ _
    · rw [if_neg h2] at h
      by_cases h3 : startsWithAt text languageConfig.inlineCommentMark i = true
      · rw [if_pos h3] at h
        simp only [StepRes.piece.injEq] at h
        obtain ⟨-, hp⟩ := h
        subst hp
        rw [matchLineComment_eq]
        exact sliceList_self text _ _
      · rw [if_neg h3] at h
        by_cases h4 : startsWithAt text languageConfig.blockCommentMark.1 i = true
        · rw [if_pos h4] at h
          cases hm : matchBlockComment text i languageConfig.blockCommentMark with
          | none => rw [hm] at h; simp at h
          | some p' =>
            rw [hm] at h
            simp only [StepRes.piece.injEq] at h
            obtain ⟨-, hp⟩ := h
            subst hp
            rw [matchBlockComment_eq] at hm
            split at hm
            · simp at hm
            · simp only [Option.some.injEq] at hm
              subst hm
              exact sliceList_self text _ _
        · rw [if_neg h4] at h
          simp at h

/-- The start of a matched piece never lies past the scan position. -/
theorem tryMatchers_start_le (text : List Char) (i : Nat) (k : PieceKind) (p : SourcePiece)
    (h : tryMatchers text i = .piece k p) : p.start ≤ i := by
  unfold tryMatchers at h
  by_cases h1 : startsWithAt text languageConfig.macroMark i = true
  · rw [if_pos h1] at h
    simp only [StepRes.piece.injEq] at h
    obtain ⟨-, hp⟩ := h
    subst hp
    rw [matchMacro_eq]
    exact backoffStart_le text i
  · rw [if_neg h1] at h
    by_cases h2 : quoteAt text i = true
    · rw [if_pos h2] at h
      cases hm : matchLiteral text i with
      | none => rw [hm] at h; simp at h
      | some p' =>
        rw [hm] at h
        simp only [StepRes.piece.injEq] at h
        obtain ⟨-, hp⟩ := h
        subst hp
        rw [matchLiteral_eq] at hm
        split at hm
        · simp at hm
        · simp only [Option.some.injEq] at hm
          subst hm
          exact Nat.le_refl i
    · rw [if_neg h2] at h
      by_cases h3 : startsWithAt text languageConfig.inlineCommentMark i = true
      · rw [if_pos h3] at h
        simp only [StepRes.piece.injEq] at h
        obtain ⟨-, hp⟩ := h
        subst hp
        exact Nat.le_refl i
      · rw [if_neg h3] at h
        by_cases h4 : startsWithAt text languageConfig.blockCommentMark.1 i = true
        · rw [if_pos h4] at h
          cases hm : matchBlockComment text i languageConfig.blockCommentMark with
          | none => rw [hm] at h; simp at h
          | some p' =>
            rw [hm] at h
            simp only [StepRes.piece.injEq] at h
            obtain ⟨-, hp⟩ := h
            subst hp
            rw [matchBlockComment_eq] at hm
            split at hm
            · simp at hm
            · simp only [Option.some.injEq] at hm
              subst hm
              exact backoffStart_le text i
        · rw [if_neg h4] at h
          simp at h

theorem scanLoopGo_irrel (text : List Char) (gas gas' i li : Nat)
    (h1 : text.length ≤ gas + i) (h2 : text.length ≤ gas' + i) :
    scanLoopGo text gas i li = scanLoopGo text gas' i li := by
  induction gas generalizing gas' i li with
  | zero =>
    have he : ¬ i < text.length := by omega
    cases gas' with
    | zero => rfl
    | succ m =>
      conv_rhs => unfold scanLoopGo
      rw [if_neg he]
      rfl
  | succ n ih =>
    by_cases he : i < text.length
    · cases gas' with
      | zero => omega
      | succ m =>
        conv_lhs => unfold scanLoopGo
        conv_rhs => unfold scanLoopGo
        rw [if_pos he, if_pos he]
        cases ht : tryMatchers text i with
        | noMatch =>
          simp only
          exact ih m (i + 1) li (by omega) (by omega)
        | fatal e => simp only
        | piece k p =>
          simp only
          have hp := tryMatchers_progress text i k p he ht
          rw [ih m (p.start + p.content.length) (p.start + p.content.length)
            (by omega) (by omega)]
    · cases gas' with
      | zero =>
        conv_lhs => unfold scanLoopGo
        rw [if_neg he]
        rfl
      | succ m =>
        conv_lhs => unfold scanLoopGo
        conv_rhs => unfold scanLoopGo
        rw [if_neg he, if_neg he]

/-- Loop exit: once the cursor is at or past the end of the text, the scan
closes with the final trailing plain run. -/
theorem scanLoop_exit (text : List Char) (i li : Nat) (hi : text.length ≤ i) :
    scanLoop text i li = .ok [.src ⟨li, text.drop li⟩] := by
  unfold scanLoop
  rw [scanLoopGo_irrel text text.length 0 i li (by omega) (by omega)]
  rfl

/-- Loop step at an unmatched position: the cursor advances by one. -/
theorem scanLoop_noMatch (text : List Char) (i li : Nat) (hi : i < text.length)
    (h : tryMatchers text i = .noMatch) :
    scanLoop text i li = scanLoop text (i + 1) li := by
  unfold scanLoop
  obtain ⟨g, hgas⟩ : ∃ g, text.length = g + 1 := ⟨text.length - 1, by omega⟩
  rw [hgas]
  conv_lhs => unfold scanLoopGo
  rw [if_pos hi, h]
  exact scanLoopGo_irrel text g (g + 1) (i + 1) li (by omega) (by omega)

/-- Loop step at a fatal position: the scan aborts with the error. -/
theorem scanLoop_fatal (text : List Char) (i li : Nat) (e : PartitionError)
    (hi : i < text.length) (h : tryMatchers text i = .fatal e) :
    scanLoop text i li = .error e := by
  unfold scanLoop
  obtain ⟨g, hgas⟩ : ∃ g, text.length = g + 1 := ⟨text.length - 1, by omega⟩
  rw [hgas]
  conv_lhs => unfold scanLoopGo
  rw [if_pos hi, h]

/-- Loop step at a matched region: the preceding plain run closes, the
region is emitted, and the scan resumes at
`lastIndex = piece.start + piece.content.length` with both the cursor and
the plain-run start there. -/
theorem scanLoop_piece (text : List Char) (i li : Nat) (k : PieceKind) (p : SourcePiece)
    (hi : i < text.length) (h : tryMatchers text i = .piece k p) :
    scanLoop text i li =
      match scanLoop text (p.start + p.content.length) (p.start + p.content.length) with
      | .error e => .error e
      | .ok evs => .ok (.src ⟨li, sliceList text li p.start⟩ :: .reg k p :: evs) := by
  unfold scanLoop
  obtain ⟨g, hgas⟩ : ∃ g, text.length = g + 1 := ⟨text.length - 1, by omega⟩
  rw [hgas]
  conv_lhs => unfold scanLoopGo
  rw [if_pos hi, h]
  simp only
  have hp := tryMatchers_progress text i k p hi h
  rw [scanLoopGo_irrel text g (g + 1) (p.start + p.content.length)
    (p.start + p.content.length) (by omega) (by omega)]

/-! ## Claim theorems -/

/-- C5, counterexample: for the input `#define X \ \nY\n` (backslash, then
a space, then a newline) the macro region spans both physical lines — its
content is the whole text, whose interior holds a newline — although no
backslash in the text is immediately followed by a newline.  So the macro
matcher does not continue "exactly when the scan hits a backslash
immediately followed by a newline". -/
theorem macroContinuation_counterexample :
    (matchMacro ("#define X \\ \nY\n".toList) 0).content = "#define X \\ \nY\n".toList ∧
    (∃ j < ("#define X \\ \nY\n".toList).length,
      j + 1 < ("#define X \\ \nY\n".toList).length ∧
      ("#define X \\ \nY\n".toList)[j]? = some '\n') ∧
    (∀ i < ("#define X \\ \nY\n".toList).length,
      ¬(("#define X \\ \nY\n".toList)[i]? = some '\\' ∧
        ("#define X \\ \nY\n".toList)[i + 1]? = some '\n')) := by
  decide

/-- C5 as amended: at a backslash the macro matcher absorbs the entire
following whitespace run (which may contain newlines) into the macro body
and continues scanning after it; so the macro continues across a physical
line whenever a backslash is followed by a whitespace run containing a
newline, not only when a newline is immediately adjacent.  For the input
`#define X 1\` newline, two spaces, `+ 2`, newline, the macro region spans
both physical lines as one region ending at (and including) the final
newline, as the claim's example states. -/
theorem macroContinuation_amended :
    (matchMacro ("#define X 1\\\n  + 2\n".toList) 0 =
      ⟨0, "#define X 1\\\n  + 2\n".toList⟩) ∧
    (∀ text e, e < text.length → text[e]? = some '\\' →
      macroScan text e = macroScan text (absorbWs text (e + 1))) ∧
    (∀ text e k, e ≤ k → k < absorbWs text e → isWs (text[k]?) = true) :=
  ⟨by decide, macroScan_backslash, absorbWs_gap⟩

/-- Witness for `macroContinuation_amended` at concrete inputs. -/
theorem macroContinuation_amended_witness :
    (macroScan ("\\ \nx".toList) 0 = macroScan ("\\ \nx".toList) (absorbWs ("\\ \nx".toList) 1)) ∧
    isWs (("\\ \nx".toList)[1]?) = true :=
  ⟨macroContinuation_amended.2.1 ("\\ \nx".toList) 0 (by decide) (by decide),
   macroContinuation_amended.2.2 ("\\ \nx".toList) 1 1 (by decide) (by decide)⟩

/-- C7: the block-comment matcher extends its start backward over
horizontal whitespace (everything between the backed-off start and the
original position is tab or space), and its two trailing absorption loops
take only horizontal whitespace and only newlines respectively; for the
input of two spaces, `/* hi */`, two spaces, newline, `code`, the comment
region is exactly the two leading spaces, the body, the two trailing
spaces and the newline, and the plain-code run starts exactly at `code`
(offset 13). -/
theorem blockComment_absorption :
    (partition ("  /* hi */  \ncode".toList) =
      .ok { macros := [], sources := [⟨13, "code".toList⟩]
          , comments := [⟨0, "  /* hi */  \n".toList⟩], literals := []
          , dependencies := [], namespaces := [], typedefs := [] }) ∧
    (∀ text i p, matchBlockComment text i languageConfig.blockCommentMark = some p →
      p.start ≤ i ∧ ∀ k, p.start ≤ k → k < i → isHoriz (text[k]?) = true) ∧
    (∀ text e k, e ≤ k → k < absorbHoriz text e → isHoriz (text[k]?) = true) ∧
    (∀ text e k, e ≤ k → k < absorbNewlines text e → text[k]? = some '\n') := by
  refine ⟨by decide, ?_, absorbHoriz_gap, absorbNewlines_gap⟩
  intro text i p hm
  rw [matchBlockComment_eq] at hm
  split at hm
  · simp at hm
  · simp only [Option.some.injEq] at hm
    subst hm
    exact ⟨backoffStart_le text i, fun k hk1 hk2 => backoffStart_gap text i k hk1 hk2⟩

/-- Witness for `blockComment_absorption` at concrete inputs. -/
theorem blockComment_absorption_witness :
    ((⟨0, " /*x*/".toList⟩ : SourcePiece).start ≤ 1 ∧
      ∀ k, (⟨0, " /*x*/".toList⟩ : SourcePiece).start ≤ k → k < 1 →
        isHoriz ((" /*x*/".toList)[k]?) = true) ∧
    isHoriz (("a \t b".toList)[2]?) = true ∧
    ("ab\n\nc".toList)[3]? = some '\n' :=
  ⟨blockComment_absorption.2.1 (" /*x*/".toList) 1 ⟨0, " /*x*/".toList⟩ (by decide),
   blockComment_absorption.2.2.1 ("a \t b".toList) 1 2 (by decide) (by decide),
   blockComment_absorption.2.2.2 ("ab\n\nc".toList) 2 3 (by decide) (by decide)⟩

/-- C8: in the literal matcher a backslash escapes the following
character (the scan skips two positions, so an escaped quote cannot close
the literal), and for the six-character input `"a\"b"` the matcher closes
only at the final unescaped quote, returning the whole region. -/
theorem literal_escape :
    (matchLiteral ("\"a\\\"b\"".toList) 0 = some ⟨0, "\"a\\\"b\"".toList⟩) ∧
    ("\"a\\\"b\"".toList).length = 6 ∧
    (∀ text quote e, quote ≠ '\\' → e < text.length → text[e]? = some '\\' →
      literalScan text quote e = literalScan text quote (e + 2)) :=
  ⟨by decide, by decide, literalScan_backslash⟩

/-- Witness for `literal_escape` at a concrete input. -/
theorem literal_escape_witness :
    literalScan ("x\\zy".toList) '"' 1 = literalScan ("x\\zy".toList) '"' 3 :=
  literal_escape.2.2 ("x\\zy".toList) '"' 1 (by decide) (by decide) (by decide)

/-- A successful `partition` outcome is `assemble` of a successful scan. -/
theorem partition_ok_assemble (text : List Char) (item : SourceItem)
    (h : partition text = .ok item) :
    ∃ evs, scanLoop text 0 0 = .ok evs ∧ item = assemble evs := by
  unfold partition at h
  cases hs : scanLoop text 0 0 with
  | error e => rw [hs] at h; exact absurd h (by simp [Except.map])
  | ok evs =>
    rw [hs] at h
    simp only [Except.map] at h
    injection h with h'
    exact ⟨evs, rfl, h'.symm⟩

/-- C3, counterexample: the same `using namespace std;` declaration twice
in one document yields the namespaces list `[std, std]`, which has a
duplicate — the final `namespaces` list is not deduplicated (only
`dependencies` passes through `new Set`). -/
theorem namespaces_dedup_counterexample :
    partitionNamespaces ("using namespace std;using namespace std;".toList) =
      ["std".toList, "std".toList] ∧
    ¬ (partitionNamespaces ("using namespace std;using namespace std;".toList)).Nodup := by
  constructor
  · decide
  · decide

/-- C3 as amended: for every successfully partitioned input the
`namespaces` list contains no empty strings (each entry is filtered for
positive length; indeed the pattern's capture `(\w+)` is never empty),
but duplicates are not removed: the same declaration occurring twice
yields two entries. -/
theorem namespaces_no_empty (text : List Char) (item : SourceItem)
    (h : partition text = .ok item) : [] ∉ item.namespaces := by
  obtain ⟨evs, -, hitem⟩ := partition_ok_assemble text item h
  subst hitem
  intro hmem
  unfold assemble at hmem
  simp only at hmem
  have h2 := (List.mem_filter.mp hmem).2
  simp at h2

/-- Witness for `namespaces_no_empty` at a concrete input. -/
theorem namespaces_no_empty_witness :
    [] ∉ ({ macros := [], sources := [], comments := [], literals := []
          , dependencies := [], namespaces := ["std".toList], typedefs := [] }
          : SourceItem).namespaces :=
  namespaces_no_empty ("using namespace std;".toList) _ (by decide)

/-- C4, counterexample: for the input `#include <a.h>\n` the single macro
region's content is entirely deleted by dependency extraction, and the
`macros` list — which, unlike `sources`, `comments` and `literals`, is
returned unfiltered — holds a region with empty content in the final
`SourceItem`. -/
theorem macros_empty_content_counterexample :
    partitionMacros ("#include <a.h>\n".toList) = [⟨0, []⟩] ∧
    ∃ p ∈ partitionMacros ("#include <a.h>\n".toList), p.content = [] := by
  constructor
  · decide
  · decide

/-- C4 as amended: in the final `SourceItem` the `sources`, `comments`
and `literals` lists never contain an empty-content region (they pass
through `filterNotEmptyPiece`), but `macros` is not filtered and can
contain an empty-content region when extraction deletes a whole
directive. -/
theorem final_filter_amended (text : List Char) (item : SourceItem)
    (h : partition text = .ok item) :
    (∀ p ∈ item.sources, p.content ≠ []) ∧
    (∀ p ∈ item.comments, p.content ≠ []) ∧
    (∀ p ∈ item.literals, p.content ≠ []) := by
  obtain ⟨evs, -, hitem⟩ := partition_ok_assemble text item h
  subst hitem
  unfold assemble
  simp only
  refine ⟨?_, ?_, ?_⟩ <;>
  · intro p hp hcon
    unfold filterNotEmptyPiece at hp
    have h2 := (List.mem_filter.mp hp).2
    rw [hcon] at h2
    simp at h2

/-- Witness for `final_filter_amended` at a concrete input. -/
theorem final_filter_amended_witness :
    (∀ p ∈ ({ macros := [], sources := [⟨0, "int a;".toList⟩], comments := []
            , literals := [], dependencies := [], namespaces := [], typedefs := [] }
            : SourceItem).sources, p.content ≠ []) ∧
    (∀ p ∈ ({ macros := [], sources := [⟨0, "int a;".toList⟩], comments := []
            , literals := [], dependencies := [], namespaces := [], typedefs := [] }
            : SourceItem).comments, p.content ≠ []) ∧
    (∀ p ∈ ({ macros := [], sources := [⟨0, "int a;".toList⟩], comments := []
            , literals := [], dependencies := [], namespaces := [], typedefs := [] }
            : SourceItem).literals, p.content ≠ []) :=
  final_filter_amended ("int a;".toList) _ (by decide)

theorem jsSetDedupGo_mem {α : Type} [DecidableEq α] (seen l : List α) (a : α) :
    a ∈ jsSetDedupGo seen l ↔ a ∈ l ∧ a ∉ seen := by
  induction l generalizing seen with
  | nil => simp [jsSetDedupGo]
  | cons b t ih =>
    unfold jsSetDedupGo
    by_cases hb : b ∈ seen
    · rw [if_pos hb, ih seen]
      constructor
      · rintro ⟨h1, h2⟩
        exact ⟨List.mem_cons_of_mem b h1, h2⟩
      · rintro ⟨h1, h2⟩
        rcases List.mem_cons.mp h1 with rfl | h1'
        · exact absurd hb h2
        · exact ⟨h1', h2⟩
    · rw [if_neg hb]
      simp only [List.mem_cons, ih (b :: seen), List.mem_cons, not_or]
      by_cases hab : a = b
      · subst hab
        simp [hb]
      · simp [hab]

theorem jsSetDedupGo_sublist {α : Type} [DecidableEq α] (seen l : List α) :
    (jsSetDedupGo seen l).Sublist l := by
  induction l generalizing seen with
  | nil => simp [jsSetDedupGo]
  | cons b t ih =>
    unfold jsSetDedupGo
    by_cases hb : b ∈ seen
    · rw [if_pos hb]
      exact (ih seen).trans (List.sublist_cons_self b t)
    · rw [if_neg hb]
      exact (ih (b :: seen)).cons₂ b

theorem jsSetDedupGo_nodup {α : Type} [DecidableEq α] (seen l : List α) :
    (jsSetDedupGo seen l).Nodup := by
  induction l generalizing seen with
  | nil => simp [jsSetDedupGo]
  | cons b t ih =>
    unfold jsSetDedupGo
    by_cases hb : b ∈ seen
    · rw [if_pos hb]
      exact ih seen
    · rw [if_neg hb]
      refine List.nodup_cons.mpr ⟨?_, ih (b :: seen)⟩
      intro hcon
      exact absurd ((jsSetDedupGo_mem (b :: seen) t b).mp hcon).2 (by simp)

/-- The JavaScript `[...new Set(l)]` idiom deduplicates keeping the first
occurrences in order: the result has no duplicates, is a subsequence of
the original, and has the same members. -/
theorem jsSetDedup_spec {α : Type} [DecidableEq α] (l : List α) :
    (jsSetDedup l).Nodup ∧ (jsSetDedup l).Sublist l ∧ (∀ a, a ∈ jsSetDedup l ↔ a ∈ l) := by
  refine ⟨jsSetDedupGo_nodup [] l, jsSetDedupGo_sublist [] l, fun a => ?_⟩
  rw [jsSetDedup, jsSetDedupGo_mem]
  simp

/-- C9: dependency extraction and dedup.  For macro content
`#include <foo/bar.h>\n` the dependency list is exactly `foo/bar.h` and
the macro's residual content is the directive-free remainder (here
empty); two identical `#include <a.h>` directives anywhere yield the
single entry `a.h`; in general the final `dependencies` list has no
duplicates, and the dedup used (`[...new Set(..)]`) keeps a subsequence
of the pushed captures, in first-occurrence order, with the same
members. -/
theorem dependency_extraction_dedup :
    (partitionDependencies ("#include <foo/bar.h>\n".toList) = ["foo/bar.h".toList]) ∧
    (partitionMacros ("#include <foo/bar.h>\n".toList) = [⟨0, []⟩]) ∧
    (partitionDependencies ("#include <a.h>\nint x;\n#include <a.h>\n".toList) =
      ["a.h".toList]) ∧
    (∀ text item, partition text = .ok item → item.dependencies.Nodup) ∧
    (∀ l : List (List Char), (jsSetDedup l).Nodup ∧ (jsSetDedup l).Sublist l ∧
      (∀ a, a ∈ jsSetDedup l ↔ a ∈ l)) := by
  refine ⟨by decide, by decide, by decide, ?_, jsSetDedup_spec⟩
  intro text item h
  obtain ⟨evs, -, hitem⟩ := partition_ok_assemble text item h
  subst hitem
  unfold assemble
  simp only
  exact ((jsSetDedup_spec _).1).filter _

/-- Witness for `dependency_extraction_dedup` at a concrete input. -/
theorem dependency_extraction_dedup_witness :
    ({ macros := [⟨0, []⟩], sources := [], comments := [], literals := []
     , dependencies := ["a.h".toList], namespaces := [], typedefs := [] }
     : SourceItem).dependencies.Nodup :=
  dependency_extraction_dedup.2.2.2.1 ("#include <a.h>\n".toList) _ (by decide)

/-- C6, counterexample: for the document
`usiusing namespace x;ng namespace y;` (one plain-code run) the namespace
pass deletes its single match `using namespace x;`, and the deletion
splices the surrounding text into the fresh content
`using namespace y;` — on which re-running the same pattern does find a
further match (capturing `y` and changing the content), so extraction is
not idempotent. -/
theorem extraction_idempotence_counterexample :
    partitionSources ("usiusing namespace x;ng namespace y;".toList) =
      [⟨0, "using namespace y;".toList⟩] ∧
    partitionNamespaces ("usiusing namespace x;ng namespace y;".toList) = ["x".toList] ∧
    (nsReplace ("using namespace y;".toList)).2 = ["y".toList] ∧
    (nsReplace ("using namespace y;".toList)).1 = [] := by
  refine ⟨by decide, by decide, by decide, by decide⟩

theorem startsWithAt_past_len (text tok : List Char) (i : Nat) (htok : tok ≠ [])
    (hi : text.length ≤ i) : startsWithAt text tok i = false := by
  unfold startsWithAt
  rw [List.drop_eq_nil_of_le hi]
  simp only [List.take_nil, decide_eq_false_iff_not]
  exact fun hcon => htok hcon.symm

theorem containsTok_false (text tok : List Char) (htok : tok ≠ [])
    (h : containsTok text tok = false) : ∀ j, startsWithAt text tok j = false := by
  intro j
  by_cases hj : j < text.length
  · unfold containsTok at h
    rw [List.any_eq_false] at h
    have := h j (List.mem_range.mpr hj)
    simpa using this
  · exact startsWithAt_past_len text tok j htok (by omega)

theorem findFromGo_none {α : Type} (matchAt : List Char → Nat → Option (Nat × α))
    (text : List Char) (gas pos : Nat)
    (hnone : ∀ j, matchAt text j = none) : findFromGo matchAt text gas pos = none := by
  induction gas generalizing pos with
  | zero => rfl
  | succ n ih =>
    unfold findFromGo
    split
    · rw [hnone pos]
      exact ih (pos + 1)
    · rfl

/-- If the matcher never matches, the global replace leaves the text
unchanged and collects nothing. -/
theorem replaceG_id_of_no_match {α : Type} (matchAt : List Char → Nat → Option (Nat × α))
    (text : List Char) (hnone : ∀ j, matchAt text j = none) :
    replaceG matchAt text = (text, ([] : List α)) := by
  unfold replaceG
  conv_lhs => unfold replaceGGo
  have hf : findFrom matchAt text 0 = none :=
    findFromGo_none matchAt text text.length 0 hnone
  rw [hf]
  simp

theorem importMatchAt_none (c : List Char)
    (h : ∀ j, startsWithAt c importAnchor j = false) : ∀ j, importMatchAt c j = none := by
  intro j
  cases hm : importMatchAt c j with
  | none => rfl
  | some r =>
    have hb := (importMatchAt_bounds c j r.1 r.2 (by rw [hm])).2.2
    rw [show (['#', 'i', 'n', 'c', 'l', 'u', 'd', 'e'] : List Char) = importAnchor from rfl,
      h j] at hb
    exact absurd hb (by simp)

theorem nsMatchAt_none (c : List Char)
    (h : ∀ j, startsWithAt c usingAnchor j = false) : ∀ j, nsMatchAt c j = none := by
  intro j
  cases hm : nsMatchAt c j with
  | none => rfl
  | some r =>
    have hb := (nsMatchAt_bounds c j r.1 r.2 (by rw [hm])).2.2
    rw [show (['u', 's', 'i', 'n', 'g'] : List Char) = usingAnchor from rfl, h j] at hb
    exact absurd hb (by simp)

theorem typedefMatchAt_none (c : List Char)
    (h : ∀ j, startsWithAt c typedefAnchor j = false) : ∀ j, typedefMatchAt c j = none := by
  intro j
  cases hm : typedefMatchAt c j with
  | none => rfl
  | some r =>
    have hb := (typedefMatchAt_bounds c j r.1 r.2.1 r.2.2 (by rw [hm])).2.2
    rw [show (['t', 'y', 'p', 'e', 'd', 'e', 'f'] : List Char) = typedefAnchor from rfl,
      h j] at hb
    exact absurd hb (by simp)

/-- C6 as amended: a deletion performed by a pass can splice the
surrounding text into a brand-new match, so extraction is not idempotent
in general; it is idempotent on any content that does not contain the
pattern's anchor keyword (`#include` / `using` / `typedef`) — in
particular on any stripped content free of the anchor, a second run finds
no further matches and leaves the content unchanged. -/
theorem extraction_anchor_free_idempotent (c : List Char) :
    (containsTok c importAnchor = false → importReplace c = (c, [])) ∧
    (containsTok c usingAnchor = false → nsReplace c = (c, [])) ∧
    (containsTok c typedefAnchor = false → tdReplace c = (c, [])) := by
  refine ⟨fun h => ?_, fun h => ?_, fun h => ?_⟩
  · exact replaceG_id_of_no_match importMatchAt c
      (importMatchAt_none c (containsTok_false c importAnchor (by decide) h))
  · exact replaceG_id_of_no_match nsMatchAt c
      (nsMatchAt_none c (containsTok_false c usingAnchor (by decide) h))
  · exact replaceG_id_of_no_match typedefMatchAt c
      (typedefMatchAt_none c (containsTok_false c typedefAnchor (by decide) h))

/-- Witness for `extraction_anchor_free_idempotent` at a concrete input. -/
theorem extraction_anchor_free_idempotent_witness :
    importReplace ("int a;".toList) = ("int a;".toList, []) ∧
    nsReplace ("int a;".toList) = ("int a;".toList, []) ∧
    tdReplace ("int a;".toList) = ("int a;".toList, []) :=
  ⟨(extraction_anchor_free_idempotent ("int a;".toList)).1 (by decide),
   (extraction_anchor_free_idempotent ("int a;".toList)).2.1 (by decide),
   (extraction_anchor_free_idempotent ("int a;".toList)).2.2 (by decide)⟩

/-- C10: whenever a matcher returns a region at scan position `i` (with
`lastIndex = li ≤ i < length`), the new `lastIndex`
(`piece.start + piece.content.length`) is strictly greater than both the
old `lastIndex` and the cursor, stays within the text, and the scan
resumes exactly at the new `lastIndex` (with the closed plain run and the
region emitted) — so the cursor makes strict forward progress and the
single pass is finite. -/
theorem scan_forward_progress (text : List Char) (i li : Nat) (k : PieceKind)
    (p : SourcePiece) (hli : li ≤ i) (hi : i < text.length)
    (h : tryMatchers text i = .piece k p) :
    li < p.start + p.content.length ∧ i < p.start + p.content.length ∧
    p.start + p.content.length ≤ text.length ∧
    scanLoop text i li =
      Except.map (fun evs => .src ⟨li, sliceList text li p.start⟩ :: .reg k p :: evs)
        (scanLoop text (p.start + p.content.length) (p.start + p.content.length)) := by
  have hp := tryMatchers_progress text i k p hi h
  refine ⟨by omega, hp.2.1, hp.2.2, ?_⟩
  rw [scanLoop_piece text i li k p hi h]
  cases scanLoop text (p.start + p.content.length) (p.start + p.content.length) with
  | error e => rfl
  | ok evs => rfl

/-- Witness for `scan_forward_progress` at a concrete input. -/
theorem scan_forward_progress_witness :
    (0 : Nat) < (⟨1, "#b\n".toList⟩ : SourcePiece).start +
      (⟨1, "#b\n".toList⟩ : SourcePiece).content.length ∧
    1 < (⟨1, "#b\n".toList⟩ : SourcePiece).start +
      (⟨1, "#b\n".toList⟩ : SourcePiece).content.length ∧
    (⟨1, "#b\n".toList⟩ : SourcePiece).start +
      (⟨1, "#b\n".toList⟩ : SourcePiece).content.length ≤ ("a#b\n".toList).length ∧
    scanLoop ("a#b\n".toList) 1 0 =
      Except.map
        (fun evs => .src ⟨0, sliceList ("a#b\n".toList) 0
            (⟨1, "#b\n".toList⟩ : SourcePiece).start⟩ ::
          .reg .macroK ⟨1, "#b\n".toList⟩ :: evs)
        (scanLoop ("a#b\n".toList)
          ((⟨1, "#b\n".toList⟩ : SourcePiece).start +
            (⟨1, "#b\n".toList⟩ : SourcePiece).content.length)
          ((⟨1, "#b\n".toList⟩ : SourcePiece).start +
            (⟨1, "#b\n".toList⟩ : SourcePiece).content.length)) :=
  scan_forward_progress ("a#b\n".toList) 1 0 .macroK ⟨1, "#b\n".toList⟩ (by decide)
    (by decide) (by decide)

theorem alignedB_start_ge (l : List SourcePiece) : ∀ n, alignedB n l = true →
    ∀ q ∈ l, n ≤ q.start := by
  induction l with
  | nil => simp
  | cons p rest ih =>
    intro n h q hq
    simp only [alignedB, Bool.and_eq_true, beq_iff_eq] at h
    obtain ⟨h1, h2⟩ := h
    rcases List.mem_cons.mp hq with rfl | hq'
    · omega
    · have := ih (n + p.content.length) h2 q hq'
      omega

theorem alignedB_pairwise (l : List SourcePiece) : ∀ n, alignedB n l = true →
    List.Pairwise (fun p q => p.start + p.content.length ≤ q.start) l := by
  induction l with
  | nil => simp
  | cons p rest ih =>
    intro n h
    simp only [alignedB, Bool.and_eq_true, beq_iff_eq] at h
    obtain ⟨h1, h2⟩ := h
    refine List.Pairwise.cons ?_ (ih _ h2)
    intro q hq
    have := alignedB_start_ge rest (n + p.content.length) h2 q hq
    omega

theorem cons_perm_insert1 {α : Type} {p : α} {t M W : List α}
    (h : t.Perm (M ++ W)) : (p :: t).Perm (M ++ (p :: W)) :=
  (h.cons p).trans (@List.perm_middle _ p M W).symm

theorem cons_perm_insert2 {α : Type} {p : α} {t M L W : List α}
    (h : t.Perm (M ++ (L ++ W))) : (p :: t).Perm (M ++ (L ++ (p :: W))) :=
  (h.cons p).trans ((@List.perm_middle _ p M (L ++ W)).symm.trans
    (List.Perm.append_left M (@List.perm_middle _ p L W).symm))

theorem cons_perm_insert3 {α : Type} {p : α} {t M L C W : List α}
    (h : t.Perm (M ++ (L ++ (C ++ W)))) : (p :: t).Perm (M ++ (L ++ (C ++ (p :: W)))) :=
  (h.cons p).trans ((@List.perm_middle _ p M (L ++ (C ++ W))).symm.trans
    (List.Perm.append_left M ((@List.perm_middle _ p L (C ++ W)).symm.trans
      (List.Perm.append_left L (@List.perm_middle _ p C W).symm))))

/-- The chronological piece list is, up to reordering, exactly the four
arrays `macros`, `literals`, `comments`, `sources` of the scan taken
together. -/
theorem evPieces_perm (evs : List Ev) :
    (evs.map evPiece).Perm
      (rawMacros evs ++ rawLiterals evs ++ rawComments evs ++ rawSources evs) := by
  induction evs with
  | nil => simp [rawMacros, rawLiterals, rawComments, rawSources]
  | cons ev rest ih =>
    cases ev with
    | src p =>
      simp only [rawMacros, rawLiterals, rawComments, rawSources, List.filterMap_cons,
        List.map_cons, evPiece, List.append_assoc] at ih ⊢
      exact cons_perm_insert3 ih
    | reg k p =>
      cases k with
      | macroK =>
        simp only [rawMacros, rawLiterals, rawComments, rawSources, List.filterMap_cons,
          List.map_cons, evPiece, List.append_assoc, List.cons_append] at ih ⊢
        exact ih.cons p
      | literalK =>
        simp only [rawMacros, rawLiterals, rawComments, rawSources, List.filterMap_cons,
          List.map_cons, evPiece, List.append_assoc, List.cons_append] at ih ⊢
        exact cons_perm_insert1 ih
      | commentK =>
        simp only [rawMacros, rawLiterals, rawComments, rawSources, List.filterMap_cons,
          List.map_cons, evPiece, List.append_assoc, List.cons_append] at ih ⊢
        exact cons_perm_insert2 ih

/-- Main reconstruction invariant of the scan loop: if the scan from
cursor `i` with open plain run at `li` succeeds and the emitted pieces
are exactly adjacent from `li` on, then their contents laid end to end
are exactly the rest of the text from `li`. -/
theorem scanLoopGo_reconstruct (text : List Char) (gas : Nat) :
    ∀ i li evs, text.length ≤ gas + i → li ≤ text.length →
    scanLoopGo text gas i li = .ok evs →
    alignedB li (evs.map evPiece) = true →
    ((evs.map evPiece).map SourcePiece.content).flatten = text.drop li := by
  induction gas with
  | zero =>
    intro i li evs hinv hli hok halign
    unfold scanLoopGo at hok
    injection hok with h'
    subst h'
    simp [evPiece]
  | succ n ih =>
    intro i li evs hinv hli hok halign
    unfold scanLoopGo at hok
    split at hok
    · next hlt =>
      cases ht : tryMatchers text i with
      | noMatch =>
        rw [ht] at hok
        exact ih (i + 1) li evs (by omega) hli hok halign
      | fatal e =>
        rw [ht] at hok
        exact absurd hok (by simp)
      | piece k p =>
        rw [ht] at hok
        simp only at hok
        cases hrec : scanLoopGo text n (p.start + p.content.length)
            (p.start + p.content.length) with
        | error e =>
          rw [hrec] at hok
          exact absurd hok (by simp)
        | ok evs' =>
          rw [hrec] at hok
          injection hok with h'
          subst h'
          have hp := tryMatchers_progress text i k p hlt ht
          have hcontent := tryMatchers_content text i k p ht
          simp only [List.map_cons, evPiece, alignedB, Bool.and_eq_true, beq_iff_eq]
            at halign
          obtain ⟨-, hstart, halign'⟩ := halign
          have hg : (sliceList text li p.start).length = min p.start text.length - li :=
            sliceList_length text li p.start
          have hmin : min p.start text.length = p.start := by omega
          rw [hmin] at hg
          have hlip : li ≤ p.start := by omega
          have hpos : li + (sliceList text li p.start).length + p.content.length =
              p.start + p.content.length := by omega
          rw [hpos] at halign'
          have ihres := ih (p.start + p.content.length) (p.start + p.content.length) evs'
            (by omega) (by omega) hrec halign'
          simp only [List.map_cons, evPiece, List.flatten_cons]
          rw [ihres, hcontent]
          conv_rhs => rw [drop_eq_slice_append text li p.start hlip (by omega)]
          conv_rhs => rw [drop_eq_slice_append text p.start (p.start + p.content.length)
            (by omega) (by omega)]
          rw [← hcontent]
    · next hge =>
      injection hok with h'
      subst h'
      simp [evPiece]

/-- C1, counterexample: for the input `/*c*/ #define X\n` the block
comment absorbs the trailing space (its region is `/*c*/ ` covering
offsets 0-5) and the following macro's backward whitespace extension then
reaches back over that same space (its region starts at offset 5), so two
regions overlap and the total content length (17) exceeds the text length
(16): no arrangement of the regions laid end to end can reproduce the
input. -/
theorem reconstruction_counterexample :
    rawPieces ("/*c*/ #define X\n".toList) =
      [⟨0, []⟩, ⟨0, "/*c*/ ".toList⟩, ⟨6, []⟩, ⟨5, " #define X\n".toList⟩, ⟨16, []⟩] ∧
    ((rawPieces ("/*c*/ #define X\n".toList)).map fun p => p.content.length).sum = 17 ∧
    ("/*c*/ #define X\n".toList).length = 16 ∧
    (∃ p ∈ rawPieces ("/*c*/ #define X\n".toList),
      ∃ q ∈ rawPieces ("/*c*/ #define X\n".toList),
        p.start < q.start ∧ q.start < p.start + p.content.length) := by
  refine ⟨by decide, by decide, by decide, by decide⟩

/-- C1 as amended: for every input with no unterminated literal or block
comment, and in which no matched region's backward whitespace extension
reaches back past the end of the previously matched region (equivalently:
the scan's plain runs and regions are exactly adjacent, `alignedB`), the
pieces in scan order are sorted by start offset, laying their contents
end to end reproduces the input text exactly, no two pieces overlap, and
those pieces are — up to reordering — exactly the macros, literals,
comments and sources (with their pre-extraction content). -/
theorem partition_reconstruction (text : List Char) (evs : List Ev)
    (hok : scanLoop text 0 0 = .ok evs)
    (halign : alignedB 0 (evs.map evPiece) = true) :
    ((evs.map evPiece).map SourcePiece.content).flatten = text ∧
    List.Pairwise (fun p q => p.start ≤ q.start) (evs.map evPiece) ∧
    List.Pairwise (fun p q => p.start + p.content.length ≤ q.start) (evs.map evPiece) ∧
    (evs.map evPiece).Perm
      (rawMacros evs ++ rawLiterals evs ++ rawComments evs ++ rawSources evs) := by
  have h1 := scanLoopGo_reconstruct text text.length 0 0 evs (by omega) (by omega) hok halign
  rw [List.drop_zero] at h1
  have h3 := alignedB_pairwise (evs.map evPiece) 0 halign
  refine ⟨h1, ?_, h3, evPieces_perm evs⟩
  exact h3.imp (fun hpq => by omega)

/-- Witness for `partition_reconstruction` at a concrete input. -/
theorem partition_reconstruction_witness :
    ((([Ev.src ⟨0, "a".toList⟩, Ev.reg .macroK ⟨1, "#b\n".toList⟩,
        Ev.src ⟨4, "c".toList⟩] : List Ev).map evPiece).map SourcePiece.content).flatten =
      "a#b\nc".toList ∧
    List.Pairwise (fun p q => p.start ≤ q.start)
      (([Ev.src ⟨0, "a".toList⟩, Ev.reg .macroK ⟨1, "#b\n".toList⟩,
        Ev.src ⟨4, "c".toList⟩] : List Ev).map evPiece) ∧
    List.Pairwise (fun p q => p.start + p.content.length ≤ q.start)
      (([Ev.src ⟨0, "a".toList⟩, Ev.reg .macroK ⟨1, "#b\n".toList⟩,
        Ev.src ⟨4, "c".toList⟩] : List Ev).map evPiece) ∧
    (([Ev.src ⟨0, "a".toList⟩, Ev.reg .macroK ⟨1, "#b\n".toList⟩,
        Ev.src ⟨4, "c".toList⟩] : List Ev).map evPiece).Perm
      (rawMacros [Ev.src ⟨0, "a".toList⟩, Ev.reg .macroK ⟨1, "#b\n".toList⟩,
          Ev.src ⟨4, "c".toList⟩] ++
        rawLiterals [Ev.src ⟨0, "a".toList⟩, Ev.reg .macroK ⟨1, "#b\n".toList⟩,
          Ev.src ⟨4, "c".toList⟩] ++
        rawComments [Ev.src ⟨0, "a".toList⟩, Ev.reg .macroK ⟨1, "#b\n".toList⟩,
          Ev.src ⟨4, "c".toList⟩] ++
        rawSources [Ev.src ⟨0, "a".toList⟩, Ev.reg .macroK ⟨1, "#b\n".toList⟩,
          Ev.src ⟨4, "c".toList⟩]) :=
  partition_reconstruction ("a#b\nc".toList)
    [Ev.src ⟨0, "a".toList⟩, Ev.reg .macroK ⟨1, "#b\n".toList⟩, Ev.src ⟨4, "c".toList⟩]
    (by decide) (by decide)

/-- The matcher chain reports an unterminated literal exactly when no
macro starts at `i`, a quote character stands at `i`, and the literal
scan (which honours backslash escapes) runs off the end of the text. -/
theorem tryMatchers_fatal_iff_lit (text : List Char) (i : Nat) :
    tryMatchers text i = .fatal .unterminatedLiteral ↔
      (startsWithAt text languageConfig.macroMark i = false ∧ quoteAt text i = true ∧
        text.length ≤ literalScan text (text.getD i ' ') (i + 1)) := by
  unfold tryMatchers
  by_cases h1 : startsWithAt text languageConfig.macroMark i = true
  · rw [if_pos h1]
    simp [h1]
  · rw [if_neg h1]
    by_cases h2 : quoteAt text i = true
    · rw [if_pos h2]
      rw [matchLiteral_eq]
      by_cases h3 : literalScan text (text.getD i ' ') (i + 1) ≥ text.length
      · rw [if_pos h3]
        simp only [Bool.not_eq_true] at h1
        constructor
        · intro h
          exact ⟨h1, h2, h3⟩
        · intro h
          rfl
      · rw [if_neg h3]
        simp only [Bool.not_eq_true] at h1
        simp only [h1, h2, true_and]
        constructor
        · intro hcon
          simp at hcon
        · intro hcon
          omega
    · rw [if_neg h2]
      simp only [Bool.not_eq_true] at h2
      simp only [h2, Bool.false_eq_true, false_and, and_false, iff_false]
      intro hcon
      split at hcon
      · simp at hcon
      · split at hcon
        · split at hcon
          · simp at hcon
          · simp at hcon
        · simp at hcon

/-- The matcher chain reports an unterminated block comment exactly when
none of macro, literal and line comment starts at `i`, the block-comment
open token does, and the close-token search from the backed-off start
runs off the end of the text. -/
theorem tryMatchers_fatal_iff_block (text : List Char) (i : Nat) :
    tryMatchers text i = .fatal .unterminatedBlockComment ↔
      (startsWithAt text languageConfig.macroMark i = false ∧ quoteAt text i = false ∧
        startsWithAt text languageConfig.inlineCommentMark i = false ∧
        startsWithAt text languageConfig.blockCommentMark.1 i = true ∧
        text.length ≤ findClose text languageConfig.blockCommentMark.2
          (backoffStart text i + languageConfig.blockCommentMark.1.length)) := by
  unfold tryMatchers
  by_cases h1 : startsWithAt text languageConfig.macroMark i = true
  · rw [if_pos h1]
    simp [h1]
  · rw [if_neg h1]
    simp only [Bool.not_eq_true] at h1
    by_cases h2 : quoteAt text i = true
    · rw [if_pos h2]
      simp only [h2, Bool.true_eq_false, false_and, and_false, iff_false]
      intro hcon
      split at hcon
      · simp at hcon
      · simp at hcon
    · rw [if_neg h2]
      simp only [Bool.not_eq_true] at h2
      by_cases h3 : startsWithAt text languageConfig.inlineCommentMark i = true
      · rw [if_pos h3]
        simp [h3]
      · rw [if_neg h3]
        simp only [Bool.not_eq_true] at h3
        by_cases h4 : startsWithAt text languageConfig.blockCommentMark.1 i = true
        · rw [if_pos h4]
          rw [matchBlockComment_eq]
          by_cases h5 : findClose text languageConfig.blockCommentMark.2
              (backoffStart text i + languageConfig.blockCommentMark.1.length) ≥ text.length
          · rw [if_pos h5]
            simp [h1, h2, h3, h4, h5]
          · rw [if_neg h5]
            simp only [h1, h2, h3, h4, true_and]
            constructor
            · intro hcon
              simp at hcon
            · intro hcon
              omega
        · rw [if_neg h4]
          simp only [Bool.not_eq_true] at h4
          simp [h4]

theorem scanLoopGo_error_reaches (text : List Char) (gas : Nat) :
    ∀ i li e, text.length ≤ gas + i → Reaches text i li →
    scanLoopGo text gas i li = .error e →
    ∃ j lj, Reaches text j lj ∧ j < text.length ∧ tryMatchers text j = .fatal e := by
  induction gas with
  | zero =>
    intro i li e hinv hr herr
    unfold scanLoopGo at herr
    exact absurd herr (by simp)
  | succ n ih =>
    intro i li e hinv hr herr
    unfold scanLoopGo at herr
    split at herr
    · next hlt =>
      cases ht : tryMatchers text i with
      | noMatch =>
        rw [ht] at herr
        exact ih (i + 1) li e (by omega) (Reaches.skip hr hlt ht) herr
      | fatal e' =>
        rw [ht] at herr
        injection herr with h'
        subst h'
        exact ⟨i, li, hr, hlt, ht⟩
      | piece k p =>
        rw [ht] at herr
        simp only at herr
        cases hrec : scanLoopGo text n (p.start + p.content.length)
            (p.start + p.content.length) with
        | error e2 =>
          rw [hrec] at herr
          injection herr with h'
          subst h'
          have hp := tryMatchers_progress text i k p hlt ht
          exact ih _ _ _ (by omega) (Reaches.step hr hlt ht) hrec
        | ok evs =>
          rw [hrec] at herr
          exact absurd herr (by simp)
    · exact absurd herr (by simp)

theorem reaches_scanLoop_error (text : List Char) (j lj : Nat) (e : PartitionError)
    (hr : Reaches text j lj) (herr : scanLoop text j lj = .error e) :
    scanLoop text 0 0 = .error e := by
  revert herr
  induction hr with
  | init => exact fun herr => herr
  | skip hr' hlt hnm ih =>
    intro herr
    apply ih
    rw [scanLoop_noMatch text _ _ hlt hnm]
    exact herr
  | step hr' hlt hpc ih =>
    intro herr
    apply ih
    rw [scanLoop_piece text _ _ _ _ hlt hpc, herr]

theorem partition_error_iff (text : List Char) (e : PartitionError) :
    partition text = .error e ↔ scanLoop text 0 0 = .error e := by
  unfold partition
  cases scanLoop text 0 0 <;> simp [Except.map]

/-- C2: `partition` fails exactly when the scan reaches, from its initial
state, a position where the literal matcher or the block-comment matcher
opens and scans off the end of the text — the two failure kinds are
distinguishable and characterized by their conditions at a reached state
— and succeeds (producing a `SourceItem`) exactly when no reachable
position is fatal.  In particular the empty text, marker-free text and a
macro without a trailing newline succeed, while an unterminated literal
or block comment fails with its kind. -/
theorem partition_error_characterization :
    (∀ text : List Char,
      ((partition text = .error .unterminatedLiteral) ↔
        ∃ i li, Reaches text i li ∧ i < text.length ∧
          startsWithAt text languageConfig.macroMark i = false ∧ quoteAt text i = true ∧
          text.length ≤ literalScan text (text.getD i ' ') (i + 1)) ∧
      ((partition text = .error .unterminatedBlockComment) ↔
        ∃ i li, Reaches text i li ∧ i < text.length ∧
          startsWithAt text languageConfig.macroMark i = false ∧ quoteAt text i = false ∧
          startsWithAt text languageConfig.inlineCommentMark i = false ∧
          startsWithAt text languageConfig.blockCommentMark.1 i = true ∧
          text.length ≤ findClose text languageConfig.blockCommentMark.2
            (backoffStart text i + languageConfig.blockCommentMark.1.length)) ∧
      ((∃ item, partition text = .ok item) ↔
        ∀ i li, Reaches text i li → i < text.length →
          ∀ e, tryMatchers text i ≠ .fatal e)) ∧
    (∃ item, partition ([] : List Char) = .ok item) ∧
    (∃ item, partition ("int x;\n".toList) = .ok item) ∧
    (∃ item, partition ("#define X".toList) = .ok item) ∧
    partition ("\"unterminated".toList) = .error .unterminatedLiteral ∧
    partition ("int /* x".toList) = .error .unterminatedBlockComment := by
  refine ⟨?_,
    ⟨{ macros := [], sources := [], comments := [], literals := []
     , dependencies := [], namespaces := [], typedefs := [] }, by decide⟩,
    ⟨{ macros := [], sources := [⟨0, "int x;\n".toList⟩], comments := [], literals := []
     , dependencies := [], namespaces := [], typedefs := [] }, by decide⟩,
    ⟨{ macros := [⟨0, "#define X".toList⟩], sources := [], comments := [], literals := []
     , dependencies := [], namespaces := [], typedefs := [] }, by decide⟩,
    by decide, by decide⟩
  intro text
  refine ⟨?_, ?_, ?_⟩
  · constructor
    · intro h
      have hs := (partition_error_iff text _).mp h
      obtain ⟨j, lj, hr, hlt, ht⟩ :=
        scanLoopGo_error_reaches text text.length 0 0 _ (by omega) Reaches.init hs
      have hc := (tryMatchers_fatal_iff_lit text j).mp ht
      exact ⟨j, lj, hr, hlt, hc.1, hc.2.1, hc.2.2⟩
    · rintro ⟨i, li, hr, hlt, hc1, hc2, hc3⟩
      have ht := (tryMatchers_fatal_iff_lit text i).mpr ⟨hc1, hc2, hc3⟩
      have h1 := scanLoop_fatal text i li _ hlt ht
      exact (partition_error_iff text _).mpr (reaches_scanLoop_error text i li _ hr h1)
  · constructor
    · intro h
      have hs := (partition_error_iff text _).mp h
      obtain ⟨j, lj, hr, hlt, ht⟩ :=
        scanLoopGo_error_reaches text text.length 0 0 _ (by omega) Reaches.init hs
      have hc := (tryMatchers_fatal_iff_block text j).mp ht
      exact ⟨j, lj, hr, hlt, hc.1, hc.2.1, hc.2.2.1, hc.2.2.2.1, hc.2.2.2.2⟩
    · rintro ⟨i, li, hr, hlt, hc1, hc2, hc3, hc4, hc5⟩
      have ht := (tryMatchers_fatal_iff_block text i).mpr ⟨hc1, hc2, hc3, hc4, hc5⟩
      have h1 := scanLoop_fatal text i li _ hlt ht
      exact (partition_error_iff text _).mpr (reaches_scanLoop_error text i li _ hr h1)
  · constructor
    · rintro ⟨item, hok⟩ i li hr hlt e ht
      have h1 := scanLoop_fatal text i li _ hlt ht
      have h2 := (partition_error_iff text _).mpr (reaches_scanLoop_error text i li _ hr h1)
      rw [hok] at h2
      exact absurd h2 (by simp)
    · intro hno
      cases hs : scanLoop text 0 0 with
      | ok evs =>
        refine ⟨assemble evs, ?_⟩
        unfold partition
        rw [hs]
        rfl
      | error e =>
        obtain ⟨j, lj, hr, hlt, ht⟩ :=
          scanLoopGo_error_reaches text text.length 0 0 _ (by omega) Reaches.init hs
        exact absurd ht (hno j lj hr hlt e)
